import Mathlib

/-!
Verification of the threat2yar rule curation and regex synthesis engine.

The Python sources (validate_yara.py, generate_regex.py, common.py, config.py)
are embedded shallowly: rule texts are lists of characters, the filesystem is
an explicit structure threaded through the passes, and the external
collaborators (the YARA validator binary and the generation oracle) are
parameters of the functions that call them.  Python regular-expression
primitives used by the source are deterministic token scans here, justified
case by case in the doc comments.
-/

namespace Threat2Yar

instance {ε α : Type} [DecidableEq ε] [DecidableEq α] : DecidableEq (Except ε α) :=
  fun x y =>
    match x, y with
    | .error a, .error b =>
      if h : a = b then isTrue (by rw [h]) else isFalse (by simp [h])
    | .ok a, .ok b =>
      if h : a = b then isTrue (by rw [h]) else isFalse (by simp [h])
    | .error _, .ok _ => isFalse (by simp)
    | .ok _, .error _ => isFalse (by simp)

/-- ASCII whitespace characters recognised by a backslash-s character class
and by Python str.strip. -/
def isPySpace (c : Char) : Bool :=
  c == ' ' || c == '\t' || c == '\n' || c == '\r' || c == '\x0b' || c == '\x0c'

/-- `leadsWith a b` : the list `a` is a prefix of the list `b`. -/
def leadsWith : List Char → List Char → Bool
  | [], _ => true
  | _ :: _, [] => false
  | a :: as, b :: bs => a == b && leadsWith as bs

/-- `listContains n h` : the list `n` occurs contiguously inside `h`
(Python substring containment `n in h`). -/
def listContains (n : List Char) : List Char → Bool
  | [] => n.isEmpty
  | c :: cs => leadsWith n (c :: cs) || listContains n cs

/-- Strip ASCII whitespace from both ends (Python str.strip). -/
def stripWs (l : List Char) : List Char :=
  ((l.dropWhile isPySpace).reverse.dropWhile isPySpace).reverse

/-- The suffix following the first (leftmost) occurrence of `pat`,
or `none` when `pat` does not occur. -/
def afterFirst (pat : List Char) : List Char → Option (List Char)
  | [] => if leadsWith pat [] then some [] else none
  | c :: cs =>
    if leadsWith pat (c :: cs) then some ((c :: cs).drop pat.length)
    else afterFirst pat cs

/-- One attempted match of the string-assignment pattern immediately after a
dollar sign (the Python pattern is: dollar, one or more non-whitespace, the
literal three characters space equals space, then one or more non-newline
characters, captured).  Both repetitions are forced to their maximal runs: the
name run must be followed by a space, and no shorter non-whitespace prefix can
be, while the captured value extends greedily to the end of the line.  Returns
the captured value and the number of characters consumed after the dollar. -/
def splitAssign (cs : List Char) : Option (List Char × Nat) :=
  let name := cs.takeWhile (fun c => !(isPySpace c))
  if name.length = 0 then none
  else
    match cs.drop name.length with
    | ' ' :: '=' :: ' ' :: rest =>
      let value := rest.takeWhile (fun c => c != '\n')
      if value.length = 0 then none
      else some (value, name.length + 3 + value.length)
    | _ => none

/-- The scan behind findAssignments, structurally recursive on a fuel
argument so that it stays kernel-computable.  Every step consumes at least
one character of the text (a failed position advances by one, a match by its
full positive length), so fuel equal to the text length never runs out. -/
def findAssignmentsAux : Nat → List Char → List (List Char)
  | 0, _ => []
  | _, [] => []
  | fuel + 1, c :: cs =>
    if c = '$' then
      match splitAssign cs with
      | some (v, k) => v :: findAssignmentsAux fuel (cs.drop k)
      | none => findAssignmentsAux fuel cs
    else findAssignmentsAux fuel cs

/-- All captured values of the string-assignment pattern, scanning left to
right (re.findall): on a match the scan resumes after the match, otherwise it
advances a single character. -/
def findAssignments (l : List Char) : List (List Char) :=
  findAssignmentsAux l.length l

/-- Condition extraction (re.search for the marker "condition:" followed by
greedy whitespace, then the rest of the line, captured, then str.strip):
`none` exactly when the marker does not occur. -/
def extractCondition (content : List Char) : Option (List Char) :=
  match afterFirst ("condition:".toList) content with
  | none => none
  | some rest =>
    some (stripWs ((rest.dropWhile isPySpace).takeWhile (fun c => c != '\n')))

/-- A hex digit or whitespace: the character class inside the byte-array
pattern of calculate_complexity. -/
def isHexWs (c : Char) : Bool :=
  c.isDigit || (decide ('A' ≤ c) && decide (c ≤ 'F'))
    || (decide ('a' ≤ c) && decide (c ≤ 'f')) || isPySpace c

/-- re.match of the byte-array pattern: an opening brace at the start of the
string, one or more hex-digit-or-whitespace characters, a closing brace.  The
repetition is forced maximal because a closing brace is not in the class. -/
def matchesByteArray (s : List Char) : Bool :=
  match s with
  | '\x7b' :: rest =>
    let run := rest.takeWhile isHexWs
    run.length != 0 && leadsWith ['\x7d'] (rest.drop run.length)
  | _ => false

/-- re.match of the quoted pattern: an opening double quote at the start of
the string and a closing double quote later on the same line (dot does not
cross newlines). -/
def matchesQuoted (s : List Char) : Bool :=
  match s with
  | '"' :: rest => (rest.takeWhile (fun c => c != '\n')).contains '"'
  | _ => false

def byte_array_weight : ℚ := 3
def code_snippet_weight : ℚ := 1
def file_path_weight : ℚ := 1 / 2
def all_of_multiplier : ℚ := 3 / 2

/-- The weight a string value receives in the complexity score. -/
def stringWeight (s : List Char) : ℚ :=
  if matchesByteArray s then byte_array_weight
  else if matchesQuoted s then code_snippet_weight
  else file_path_weight

/-- calculate_complexity from validate_yara.py: extract string values and the
condition clause; if the condition is absent return 0; otherwise accumulate
length times weight over the values of length at least 5, and multiply by 1.5
when the condition contains "all of" and more than one value was extracted. -/
def calculate_complexity (rule_content : List Char) : ℚ :=
  let strings := findAssignments rule_content
  match extractCondition rule_content with
  | none => 0
  | some condition =>
    let total := strings.foldl
      (fun acc s =>
        if s.length < 5 then acc else acc + (s.length : ℚ) * stringWeight s) 0
    if listContains ("all of".toList) condition && decide (strings.length > 1) then
      total * all_of_multiplier
    else total

/-- The reference computation of claim C2, written from the words of spec
section 4.2: the sum, over extracted string values of length at least 5, of
length times weight, multiplied by 1.5 when the condition text contains
"all of" and more than one string was extracted; 0 when no condition clause
was found. -/
def specComplexityScore (strings : List (List Char)) (condition : Option (List Char)) : ℚ :=
  match condition with
  | none => 0
  | some cond =>
    let base := ((strings.filter (fun s => 5 ≤ s.length)).map
      (fun s => (s.length : ℚ) * stringWeight s)).sum
    if listContains ("all of".toList) cond = true ∧ 1 < strings.length then
      base * all_of_multiplier
    else base

/-! ## common.py -/

/-- Index of the leftmost occurrence of `pat` (Python str.find, `none` for
not found). -/
def findFirstIdx (pat : List Char) : List Char → Option Nat
  | [] => if leadsWith pat [] then some 0 else none
  | c :: cs =>
    if leadsWith pat (c :: cs) then some 0
    else (findFirstIdx pat cs).map (· + 1)

/-- Index of the rightmost occurrence of `pat` (Python str.rfind, `none` for
not found). -/
def findLastIdx (pat : List Char) : List Char → Option Nat
  | [] => if leadsWith pat [] then some 0 else none
  | c :: cs =>
    match findLastIdx pat cs with
    | some i => some (i + 1)
    | none => if leadsWith pat (c :: cs) then some 0 else none

/-- extract_yara_rule from common.py: slice from the first "rule " to the last
closing brace inclusive and strip; when either token is missing, strip the
whole response. -/
def extract_yara_rule (response : List Char) : List Char :=
  match findFirstIdx ("rule ".toList) response, findLastIdx ['\x7d'] response with
  | some s, some e => stripWs ((response.drop s).take (e + 1 - s))
  | _, _ => stripWs response

/-- The denylist of is_unacceptable_yara_rule_response in common.py. -/
def unacceptableRuleMarkers : List (List Char) :=
  [("No suitable response").toList,
   ("Shellcode bytes here").toList, ("/* bytes of the shellcode */").toList,
   ("$someString").toList, ("$string1").toList, ("$data").toList, ("CHANGE_ME").toList,
   ("\x7b ? ? ? ? \x7d").toList, ("\x7b DD DD DD DD \x7d").toList,
   ("$hashValue").toList, ("hash_here").toList,
   ("$ip").toList, ("ip_address_here").toList,
   ("domain.com").toList, ("url_here").toList,
   ("/regex_pattern/").toList, ("$regex").toList,
   ("$filePath").toList, ("filepath_here").toList,
   ("$filename").toList, ("filename.exe").toList,
   ("your_IMPHASH").toList, ("$imphash").toList,
   ("CVE-XXXX-XXXX").toList, ("CVE-????-????").toList,
   ("$condition").toList, ("condition_here").toList]

/-- is_unacceptable_yara_rule_response from common.py: any denylist marker
occurs in the candidate rule text. -/
def is_unacceptable_yara_rule_response (yara_rule : List Char) : Bool :=
  unacceptableRuleMarkers.any (fun m => listContains m yara_rule)

/-- is_unacceptable_string from common.py. -/
def is_unacceptable_string (s : List Char) : Bool :=
  [("interesting string").toList,
   ("INSERT INTERESTING STRING").toList,
   ("shellcode bytes").toList].any (fun m => listContains m s)

/-! ## The validate-and-repair machine (check_rule_syntax of validate_yara.py)

The external validator binary and the generation oracle are parameters:
`validate` maps a rule text to the success of the validator run on a file
holding that text, and `oracle` maps the broken rule text to the raw oracle
response for the repair prompt built from it (`none` models both an exception
caught at the call site and an empty choice list).  The result records the
reported validity, the text the rule file holds afterwards, whether the file
was overwritten by a successful repair, and how many oracle and validator
invocations were made. -/

structure CheckResult where
  ok : Bool
  content : List Char
  repaired : Bool
  oracleCalls : Nat
  validatorCalls : Nat
deriving DecidableEq

/-- fix_yara_rule from validate_yara.py: one oracle round trip, whose stripped
response goes through extract_yara_rule. -/
def fix_yara_rule (oracle : List Char → Option (List Char)) (rule : List Char) :
    Option (List Char) :=
  (oracle rule).map (fun resp => extract_yara_rule (stripWs resp))

/-- The repair-disabled instance of check_rule_syntax: one validator run on
the given text, no oracle, no file rewrite. -/
def check_rule_base (validate : List Char → Bool) (content : List Char) : CheckResult :=
  { ok := validate content, content := content, repaired := false,
    oracleCalls := 0, validatorCalls := 1 }

/-- check_rule_syntax from validate_yara.py (spelled check_rule here).  The
Boolean argument is attempt_fix; in the source the failure branch calls
check_rule_syntax again on the fixed text with attempt_fix hard-coded to
False, which is exactly check_rule_base, so the single bounded recursion is
unfolded into it here.  An empty fixed text is falsy in the source and falls
through to the final failure return. -/
def check_rule (validate : List Char → Bool) (oracle : List Char → Option (List Char)) :
    Bool → List Char → CheckResult
  | false, content => check_rule_base validate content
  | true, content =>
    if validate content then
      { ok := true, content := content, repaired := false,
        oracleCalls := 0, validatorCalls := 1 }
    else
      match fix_yara_rule oracle content with
      | none =>
        { ok := false, content := content, repaired := false,
          oracleCalls := 1, validatorCalls := 1 }
      | some fixed =>
        if fixed.isEmpty then
          { ok := false, content := content, repaired := false,
            oracleCalls := 1, validatorCalls := 1 }
        else if is_unacceptable_yara_rule_response fixed then
          { ok := false, content := content, repaired := false,
            oracleCalls := 1, validatorCalls := 1 }
        else
          let r := check_rule_base validate fixed
          if r.ok then
            { ok := true, content := fixed, repaired := true,
              oracleCalls := 1 + r.oracleCalls, validatorCalls := 1 + r.validatorCalls }
          else
            { ok := false, content := content, repaired := false,
              oracleCalls := 1 + r.oracleCalls, validatorCalls := 1 + r.validatorCalls }

/-! ## Routing (process_files of validate_yara.py) -/

def weakRulesFolder : List Char := ("weak-rules").toList
def nonCveFolder : List Char := ("non-cve").toList
def brokenFolder : List Char := ("broken").toList

/-- A year bucket: the configured prefix followed by the four-digit year. -/
def cveYearFolder (y : List Char) : List Char := ("year-").toList ++ y

def weakIndicators : List (List Char) :=
  [("pe.imphash").toList, ("hash.sha256").toList, ("cuckoo.").toList]

def hasWeakIndicator (content : List Char) : Bool :=
  weakIndicators.any (fun w => listContains w content)

/-- re.search for the marker of an incomplete CVE id with a year but a
placeholder number: the literal text up to "CVE-", then one or more digits,
then the literal "-XXXX" and closing quote.  The digit run is forced maximal
because a dash is not a digit. -/
def matchCveXXXXAt (l : List Char) : Bool :=
  if leadsWith ("cve_id = \"CVE-".toList) l then
    let rest := l.drop ("cve_id = \"CVE-".toList).length
    let ds := rest.takeWhile Char.isDigit
    ds.length != 0 && leadsWith ("-XXXX\"".toList) (rest.drop ds.length)
  else false

def searchCveXXXX : List Char → Bool
  | [] => false
  | c :: cs => matchCveXXXXAt (c :: cs) || searchCveXXXX cs

/-- The literal marker for a rule without a CVE id. -/
def nonCveMarker : List Char := ("cve_id = \"N/A\"").toList

def hasNonCveMarker (content : List Char) : Bool :=
  listContains nonCveMarker content || searchCveXXXX content

/-- One position of the re.search for a CVE token: the literal "CVE-",
exactly four digits, a dash, and at least one further digit; on success the
captured group is the four year digits. -/
def matchCveYearAt (l : List Char) : Option (List Char) :=
  match l with
  | 'C' :: 'V' :: 'E' :: '-' :: d1 :: d2 :: d3 :: d4 :: '-' :: d5 :: _ =>
    if d1.isDigit && d2.isDigit && d3.isDigit && d4.isDigit && d5.isDigit then
      some [d1, d2, d3, d4]
    else none
  | _ => none

/-- Leftmost CVE token year in the rule text, if any. -/
def searchCveYear : List Char → Option (List Char)
  | [] => none
  | c :: cs =>
    match matchCveYearAt (c :: cs) with
    | some y => some y
    | none => searchCveYear cs

/-- The routing decision of process_files for one rule file, given the text
that was read from it: the destination folder (`none` when the rule is left
in place) and the repaired text when the repair machinery overwrote the file.
The threshold test uses the complexity short-circuited to 0 when the
configured threshold is 0, exactly as in the source. -/
def routeFile (validate : List Char → Bool) (oracle : List Char → Option (List Char))
    (attemptFix : Bool) (T : ℚ) (content : List Char) :
    Option (List Char) × Option (List Char) :=
  let complexity : ℚ := if T = 0 then 0 else calculate_complexity content
  if 0 < complexity ∧ complexity < T then (some weakRulesFolder, none)
  else if hasWeakIndicator content then (some weakRulesFolder, none)
  else if hasNonCveMarker content then (some nonCveFolder, none)
  else
    let r := check_rule validate oracle attemptFix content
    let rew : Option (List Char) := if r.repaired then some r.content else none
    if r.ok then
      match searchCveYear content with
      | some y => (some (cveYearFolder y), rew)
      | none => (none, rew)
    else (some brokenFolder, rew)

/-! ## The filesystem model

`root` is the active corpus directory (listing order preserved); file content
is optional, `none` standing for a file whose read raises.  `buckets` are the
destination subdirectories. -/

structure FS where
  root : List (List Char × Option (List Char))
  buckets : List (List Char × List (List Char × Option (List Char)))
deriving DecidableEq

def lookupRoot (fs : FS) (n : List Char) : Option (Option (List Char)) :=
  (fs.root.find? (fun e => e.1 == n)).map Prod.snd

def rootNames (fs : FS) : List (List Char) := fs.root.map Prod.fst

def writeRoot (fs : FS) (n : List Char) (c : Option (List Char)) : FS :=
  { fs with root := fs.root.map (fun e => if e.1 = n then (n, c) else e) }

def removeRoot (fs : FS) (n : List Char) : FS :=
  { fs with root := fs.root.filter (fun e => !(e.1 == n)) }

def putFile (files : List (List Char × Option (List Char))) (n : List Char)
    (c : Option (List Char)) : List (List Char × Option (List Char)) :=
  if files.any (fun e => e.1 == n) then files.map (fun e => if e.1 = n then (n, c) else e)
  else files ++ [(n, c)]

def lookupBucket (fs : FS) (b n : List Char) : Option (Option (List Char)) :=
  (fs.buckets.find? (fun e => e.1 == b)).bind
    (fun e => (e.2.find? (fun f => f.1 == n)).map Prod.snd)

/-- move_or_copy_file from validate_yara.py: in silent mode the filesystem is
untouched; otherwise the destination folder is created when missing, the file
is placed there (overwriting a file of the same name), and in move mode the
source leaves the root. -/
def move_or_copy_file (fs : FS) (n folder : List Char) (c : Option (List Char))
    (copyMode silentMode : Bool) : FS :=
  if silentMode then fs
  else
    let bs := if fs.buckets.any (fun e => e.1 == folder) then fs.buckets
              else fs.buckets ++ [(folder, [])]
    let fs2 : FS :=
      { root := fs.root,
        buckets := bs.map (fun e => if e.1 = folder then (folder, putFile e.2 n c) else e) }
    if copyMode then fs2 else removeRoot fs2 n

/-- Configuration switches of validate_yara.py consumed by process_files. -/
structure Config where
  copy_mode : Bool
  silent_mode : Bool
  fix_bad_rules : Bool
deriving DecidableEq

/-- The observable outcome of a routing pass: the filesystem, the log of
files the pass opened for reading, and the log of move/copy decisions
(printed by move_or_copy_file even in silent mode). -/
structure PassResult where
  fs : FS
  reads : List (List Char)
  actions : List (List Char × List Char)
deriving DecidableEq

def trailsWith (pat l : List Char) : Bool := leadsWith pat.reverse l.reverse

def yarSuffix : List Char := (".yar").toList

def doMove (cfg : Config) (st : PassResult) (n folder : List Char)
    (c : Option (List Char)) : PassResult :=
  { fs := move_or_copy_file st.fs n folder c cfg.copy_mode cfg.silent_mode,
    reads := st.reads,
    actions := st.actions ++ [(n, folder)] }

/-- The body of one process_files iteration once the file content has been
read: log the read, route, rewrite the file in place when the repair
machinery overwrote it, and move or copy (placing the current on-disk
content) when a destination was decided. -/
def processContent (validate : List Char → Bool) (oracle : List Char → Option (List Char))
    (cfg : Config) (T : ℚ) (st : PassResult) (n content : List Char) : PassResult :=
  let st1 : PassResult := { st with reads := st.reads ++ [n] }
  let d := routeFile validate oracle cfg.fix_bad_rules T content
  let st2 : PassResult :=
    match d.2 with
    | some newC => { st1 with fs := writeRoot st1.fs n (some newC) }
    | none => st1
  match d.1 with
  | some folder => doMove cfg st2 n folder (some (d.2.getD content))
  | none => st2

/-- One iteration of the process_files loop for the listed name `n`: names
not ending in ".yar" are skipped untouched; otherwise the file is read (a
failing read propagates as the error value and aborts the pass) and its
content processed. -/
def processOne (validate : List Char → Bool) (oracle : List Char → Option (List Char))
    (cfg : Config) (T : ℚ) (st : PassResult) (n : List Char) :
    Except (List Char) PassResult :=
  if trailsWith yarSuffix n then
    match lookupRoot st.fs n with
    | none => .error n
    | some none => .error n
    | some (some content) => .ok (processContent validate oracle cfg T st n content)
  else .ok st

def processList (validate : List Char → Bool) (oracle : List Char → Option (List Char))
    (cfg : Config) (T : ℚ) : List (List Char) → PassResult → Except (List Char) PassResult
  | [], st => .ok st
  | n :: ns, st =>
    match processOne validate oracle cfg T st n with
    | .error e => .error e
    | .ok st2 => processList validate oracle cfg T ns st2

/-- process_files from validate_yara.py: snapshot the root listing once, then
process every listed name in order. -/
def process_files (validate : List Char → Bool) (oracle : List Char → Option (List Char))
    (cfg : Config) (T : ℚ) (fs : FS) : Except (List Char) PassResult :=
  processList validate oracle cfg T (rootNames fs) { fs := fs, reads := [], actions := [] }

/-! ## The regex complexity gate (is_regex_too_complex of generate_regex.py)

The five counts are re.findall counts.  Each findall pattern is a token
pattern whose repetitions are forced (the repeated class never contains the
closing delimiter, and the lazy dot run stops at the first terminator), so
every scan below is the deterministic non-overlapping left-to-right count the
Python engine produces.  The scans consume at least one character per step,
so fuel equal to the text length never runs out. -/

/-- Count of quantifier tokens: star, plus, question mark, or a brace pair
holding one or more digits/commas. -/
def quantScanAux : Nat → List Char → Nat
  | 0, _ => 0
  | _, [] => 0
  | fuel + 1, c :: cs =>
    if c = '*' || c = '+' || c = '?' then 1 + quantScanAux fuel cs
    else if c = '\x7b' then
      let run := cs.takeWhile (fun d => d.isDigit || d == ',')
      if run.length != 0 && leadsWith ['\x7d'] (cs.drop run.length) then
        1 + quantScanAux fuel (cs.drop (run.length + 1))
      else quantScanAux fuel cs
    else quantScanAux fuel cs

def countQuantifiers (l : List Char) : Nat := quantScanAux l.length l

/-- Count of non-overlapping occurrences of the literal opener `p` followed
lazily by any non-newline characters up to a closing character `term`. -/
def bracketScanAux (p : List Char) (term : Char) : Nat → List Char → Nat
  | 0, _ => 0
  | _, [] => 0
  | fuel + 1, c :: cs =>
    if leadsWith p (c :: cs) then
      let rest := (c :: cs).drop p.length
      let seg := rest.takeWhile (fun d => d != term && d != '\n')
      if leadsWith [term] (rest.drop seg.length) then
        1 + bracketScanAux p term fuel (rest.drop (seg.length + 1))
      else bracketScanAux p term fuel cs
    else bracketScanAux p term fuel cs

def countConstruct (p : List Char) (l : List Char) : Nat :=
  bracketScanAux p ')' l.length l

def countClasses (l : List Char) : Nat :=
  bracketScanAux ['['] ']' l.length l

/-- Count of escaped-character sequences: a backslash followed by any
non-newline character, non-overlapping. -/
def escScanAux : Nat → List Char → Nat
  | 0, _ => 0
  | _, [] => 0
  | fuel + 1, c :: cs =>
    if c = '\\' then
      match cs with
      | d :: rest => if d != '\n' then 1 + escScanAux fuel rest else escScanAux fuel cs
      | [] => 0
    else escScanAux fuel cs

def countEscaped (l : List Char) : Nat := escScanAux l.length l

def countPipes (l : List Char) : Nat := (l.filter (fun c => c == '|')).length

/-- The five lookaround / non-capturing-group openers whose occurrence counts
are each bounded separately. -/
def advancedConstructs : List (List Char) :=
  [("(?=").toList, ("(?!").toList, ("(?<=").toList, ("(?<!").toList, ("(?:").toList]

/-- The configured bounds of the regex complexity gate. -/
structure RegexBounds where
  max_regex_length : Nat
  min_regex_length : Nat
  max_nested_quantifiers : Nat
  max_advanced_constructs : Nat
  max_escaped_characters : Nat
  max_classes_alternation : Nat
deriving DecidableEq

/-- The values of config.py. -/
def defaultRegexBounds : RegexBounds :=
  { max_regex_length := 150, min_regex_length := 20, max_nested_quantifiers := 3,
    max_advanced_constructs := 2, max_escaped_characters := 10,
    max_classes_alternation := 20 }

/-- is_regex_too_complex from generate_regex.py. -/
def is_regex_too_complex (b : RegexBounds) (regex : List Char) : Bool :=
  if regex.length > b.max_regex_length || regex.length < b.min_regex_length then true
  else if countQuantifiers regex > b.max_nested_quantifiers then true
  else if advancedConstructs.any (fun p => countConstruct p regex > b.max_advanced_constructs) then true
  else if countEscaped regex > b.max_escaped_characters then true
  else if countClasses regex + countPipes regex > b.max_classes_alternation then true
  else false

/-! ## The synthesis pass (process_yara_files of generate_regex.py)

The Levenshtein similarity predicate, the per-cluster regex oracle and the
master-rule improvement oracle are parameters.  The regex oracle maps a
cluster member list to the extracted pattern of its response (`none` for a
caught transport failure, an empty choice list, or a response without a
fenced pattern; an empty extracted pattern is falsy in the source and is
modelled by `some []`).  The improvement oracle maps the batched patterns to
the response text persisted verbatim (`none` for an empty choice list).
Master rule files are identified by their sequence number, which together
with the per-flush timestamp makes the emitted file names; two flushes never
share a sequence number. -/

def SMALL_STRING_MAX_LEN : Nat := 20
def MEDIUM_STRING_MAX_LEN : Nat := 100
def MIN_CLUSTER_SIZE : Nat := 10
def MAX_REGEXES_PER_RULE : Nat := 10

inductive LenCat | short | medium | long
deriving DecidableEq

/-- categorize_string_length from generate_regex.py. -/
def categorize_string_length (s : List Char) : LenCat :=
  if s.length ≤ SMALL_STRING_MAX_LEN then .short
  else if s.length ≤ MEDIUM_STRING_MAX_LEN then .medium
  else .long

/-- Greedy first-match clustering of one string into one category's ordered
cluster list: append to the first cluster whose representative key is
similar, otherwise start a new cluster keyed by the string itself. -/
def insertString (similar : List Char → List Char → Bool) (s : List Char) :
    List (List Char × List (List Char)) → List (List Char × List (List Char))
  | [] => [(s, [s])]
  | (k, ms) :: rest =>
    if similar s k then (k, ms ++ [s]) :: rest
    else (k, ms) :: insertString similar s rest

/-- The accumulator shared by all clusters during the inspection phase:
the accepted-pattern batch, the master-rule sequence counter, the persisted
master-rule files as (sequence number, verbatim response) pairs, and the
number of per-cluster regex-oracle calls made so far. -/
structure BatchState where
  regex_patterns : List (List Char)
  master_rule_seq : Nat
  outputs : List (Nat × List Char)
  genCalls : Nat
deriving DecidableEq

/-- The batch-capacity check that the loop body runs after every cluster
(lines 198-234 of generate_regex.py): at capacity, ask the improvement
oracle, persist its response when there is one, clear the batch and increment
the sequence counter. -/
def flushCheck (improve : List (List Char) → Option (List Char)) (maxPerRule : Nat)
    (b : BatchState) : BatchState :=
  if b.regex_patterns.length ≥ maxPerRule then
    { regex_patterns := [],
      master_rule_seq := b.master_rule_seq + 1,
      outputs :=
        match improve b.regex_patterns with
        | some resp => b.outputs ++ [(b.master_rule_seq, resp)]
        | none => b.outputs,
      genCalls := b.genCalls }
  else b

/-- One cluster of the inspection loop: a cluster at the minimum size calls
the regex oracle; a truthy pattern is gated for complexity and the cluster is
reset (key preserved) exactly when the pattern was truthy; then the flush
check runs regardless. -/
def inspectCluster (gen : List (List Char) → Option (List Char))
    (improve : List (List Char) → Option (List Char)) (bounds : RegexBounds)
    (minSize maxPerRule : Nat) (cl : List Char × List (List Char)) (b : BatchState) :
    (List Char × List (List Char)) × BatchState :=
  if cl.2.length ≥ minSize then
    let b1 : BatchState := { b with genCalls := b.genCalls + 1 }
    match gen cl.2 with
    | none => ((cl.1, cl.2), flushCheck improve maxPerRule b1)
    | some regex =>
      if regex.isEmpty then ((cl.1, cl.2), flushCheck improve maxPerRule b1)
      else
        let b2 : BatchState :=
          if is_regex_too_complex bounds regex then b1
          else { b1 with regex_patterns := b1.regex_patterns ++ [regex] }
        ((cl.1, []), flushCheck improve maxPerRule b2)
  else ((cl.1, cl.2), flushCheck improve maxPerRule b)

/-- The inspection loop over one category's ordered cluster list. -/
def inspectCategory (gen improve : List (List Char) → Option (List Char))
    (bounds : RegexBounds) (minSize maxPerRule : Nat) :
    List (List Char × List (List Char)) → BatchState →
    List (List Char × List (List Char)) × BatchState
  | [], b => ([], b)
  | cl :: rest, b =>
    let p1 := inspectCluster gen improve bounds minSize maxPerRule cl b
    let p2 := inspectCategory gen improve bounds minSize maxPerRule rest p1.2
    (p1.1 :: p2.1, p2.2)

/-- The whole synthesis state: the three length-banded cluster maps plus the
shared batch accumulator. -/
structure SynthState where
  short : List (List Char × List (List Char))
  medium : List (List Char × List (List Char))
  long : List (List Char × List (List Char))
  batch : BatchState
deriving DecidableEq

def initSynthState : SynthState :=
  { short := [], medium := [], long := [],
    batch := { regex_patterns := [], master_rule_seq := 1, outputs := [], genCalls := 0 } }

/-- The per-file body of process_yara_files: extract the string values,
cluster each acceptable one into its length category, then inspect every
cluster of every category (categories in their fixed dictionary order). -/
def processSynthFile (similar : List Char → List Char → Bool)
    (gen improve : List (List Char) → Option (List Char)) (bounds : RegexBounds)
    (minSize maxPerRule : Nat) (st : SynthState) (content : List Char) : SynthState :=
  let strings := findAssignments content
  let st1 := strings.foldl
    (fun acc s =>
      if is_unacceptable_string s then acc
      else
        match categorize_string_length s with
        | .short => { acc with short := insertString similar s acc.short }
        | .medium => { acc with medium := insertString similar s acc.medium }
        | .long => { acc with long := insertString similar s acc.long })
    st
  let p1 := inspectCategory gen improve bounds minSize maxPerRule st1.short st1.batch
  let p2 := inspectCategory gen improve bounds minSize maxPerRule st1.medium p1.2
  let p3 := inspectCategory gen improve bounds minSize maxPerRule st1.long p2.2
  { short := p1.1, medium := p2.1, long := p3.1, batch := p3.2 }

/-- process_yara_files from generate_regex.py over the list of rule texts the
corpus walk yields, in traversal order. -/
def process_yara_files (similar : List Char → List Char → Bool)
    (gen improve : List (List Char) → Option (List Char)) (bounds : RegexBounds)
    (minSize maxPerRule : Nat) (files : List (List Char)) : SynthState :=
  files.foldl (processSynthFile similar gen improve bounds minSize maxPerRule)
    initSynthState

/-! ## Theorems -/

/-- The complexity accumulation loop equals the sum over the kept strings. -/
theorem foldl_complexity_eq_sum (l : List (List Char)) (init : ℚ) :
    l.foldl
      (fun acc s =>
        if s.length < 5 then acc else acc + (s.length : ℚ) * stringWeight s) init
    = init + ((l.filter (fun s => 5 ≤ s.length)).map
        (fun s => (s.length : ℚ) * stringWeight s)).sum := by
  induction l generalizing init with
  | nil => simp
  | cons s rest ih =>
    by_cases h : s.length < 5
    · have h5 : ¬ (5 ≤ s.length) := by omega
      simp only [List.foldl_cons, List.filter_cons, if_pos h]
      rw [ih]
      simp [h5]
    · have h5 : 5 ≤ s.length := by omega
      simp only [List.foldl_cons, List.filter_cons, if_neg h]
      rw [ih]
      simp [h5]
      ring

/-- A rule text whose scored string section is one byte-array value of length
20 and one short quoted value, under an "all of them" condition. -/
def exRule90 : List Char :=
  ("rule t \x7b\nstrings:\n$a = \x7b 1122334455667788 \x7d\n$b = \"ab\"\ncondition:\nall of them\n\x7d").toList

/-- Claim C2: for every rule text the complexity score equals the reference
computation of spec section 4.2 (sum of length times weight over the
extracted string values of length at least 5, with weight 3 for a
brace-delimited hex-byte pattern, 1 for a quoted string and 0.5 otherwise,
multiplied by 1.5 when the condition contains "all of" and more than one
string was extracted, and 0 when no condition clause is found); and the rule
with one byte-array string of length 20 under "all of them" with two
extracted strings scores exactly 20 * 3 * 1.5 = 90. -/
theorem c2_complexity_score :
    (∀ content, calculate_complexity content =
      specComplexityScore (findAssignments content) (extractCondition content))
    ∧ calculate_complexity exRule90 = 90 := by
  have href : ∀ content, calculate_complexity content =
      specComplexityScore (findAssignments content) (extractCondition content) := by
    intro content
    unfold calculate_complexity specComplexityScore
    cases hcond : extractCondition content with
    | none => rfl
    | some cond =>
      simp only [foldl_complexity_eq_sum, zero_add]
      by_cases hall : listContains (("all of").toList) cond = true
      · by_cases hlen : 1 < (findAssignments content).length
        · simp [hall, hlen]
        · simp [hall, hlen]
      · simp [hall]
  refine ⟨href, ?_⟩
  rw [href]
  have hs : findAssignments exRule90 =
      [("\x7b 1122334455667788 \x7d").toList, ("\"ab\"").toList] := by decide
  have hc : extractCondition exRule90 = some (("all of them").toList) := by decide
  rw [hs, hc]
  have hw : ∀ s, matchesByteArray s = true → stringWeight s = 3 := by
    intro s h
    unfold stringWeight
    rw [if_pos h]
    rfl
  have hfilter : ([("\x7b 1122334455667788 \x7d").toList, ("\"ab\"").toList].filter
      (fun s => decide (5 ≤ s.length))) = [("\x7b 1122334455667788 \x7d").toList] := by decide
  simp only [specComplexityScore, hfilter]
  rw [if_pos (by exact ⟨by decide, by decide⟩)]
  simp only [List.map_cons, List.map_nil, List.sum_cons, List.sum_nil]
  rw [hw _ (by decide)]
  simp [all_of_multiplier]
  norm_num



/-- First-true selection over an ordered policy list: the claimed
"first match wins" evaluation. -/
def firstMatch : List (Bool × Option (List Char)) → Option (List Char)
  | [] => none
  | (b, d) :: rest => if b then d else firstMatch rest

/-- The ordered routing policy of spec section 4.3, written from its words:
(1) positive score strictly below the threshold (the check disabled at
threshold 0), (2) a weak-indicator substring, (3) an incomplete-CVE marker,
(4) failed unrepaired validation, (5) a CVE token giving a year bucket, and
the implicit sixth outcome of staying in place. -/
def specRoute (validate : List Char → Bool) (oracle : List Char → Option (List Char))
    (attemptFix : Bool) (T : ℚ) (content : List Char) : Option (List Char) :=
  let score := calculate_complexity content
  firstMatch
    [ (decide (¬ T = 0 ∧ 0 < score ∧ score < T), some weakRulesFolder),
      (hasWeakIndicator content, some weakRulesFolder),
      (hasNonCveMarker content, some nonCveFolder),
      (!(check_rule validate oracle attemptFix content).ok, some brokenFolder),
      (true, (searchCveYear content).map cveYearFolder) ]

theorem cveYearFolder_ne_weak (y : List Char) : cveYearFolder y ≠ weakRulesFolder := by
  intro h
  have h1 : cveYearFolder y = 'y' :: (("ear-").toList ++ y) := rfl
  have h2 : weakRulesFolder = 'w' :: ("eak-rules").toList := rfl
  rw [h1, h2] at h
  injection h with h3 h4
  exact absurd h3 (by decide)

/-- Claim C1: the routing decision of the pass equals the first matching
outcome of the spec's ordered policy, and a rule whose score equals the
threshold exactly, or whose score is 0, is never routed to the weak bucket
unless a weak-indicator substring is present. -/
theorem c1_routing_policy :
    (∀ (validate : List Char → Bool) (oracle : List Char → Option (List Char))
       (attemptFix : Bool) (T : ℚ) (content : List Char),
       (routeFile validate oracle attemptFix T content).1 =
         specRoute validate oracle attemptFix T content)
    ∧ (∀ (validate : List Char → Bool) (oracle : List Char → Option (List Char))
         (attemptFix : Bool) (T : ℚ) (content : List Char),
         (calculate_complexity content = T ∨ calculate_complexity content = 0) →
         hasWeakIndicator content = false →
         (routeFile validate oracle attemptFix T content).1 ≠ some weakRulesFolder) := by
  constructor
  · intro validate oracle attemptFix T content
    by_cases hT : T = 0
    · by_cases hw : hasWeakIndicator content = true <;>
        by_cases hm : hasNonCveMarker content = true <;>
        cases hok : (check_rule validate oracle attemptFix content).ok <;>
        cases hy : searchCveYear content <;>
        simp [routeFile, specRoute, firstMatch, hT, hw, hm, hok, hy]
    · by_cases hc : 0 < calculate_complexity content ∧ calculate_complexity content < T
      · simp [routeFile, specRoute, firstMatch, hT, hc]
      · by_cases hw : hasWeakIndicator content = true <;>
          by_cases hm : hasNonCveMarker content = true <;>
          cases hok : (check_rule validate oracle attemptFix content).ok <;>
          cases hy : searchCveYear content <;>
          simp [routeFile, specRoute, firstMatch, hT, hc, hw, hm, hok, hy]
  · intro validate oracle attemptFix T content hscore hw
    have hc : ¬ (0 < (if T = 0 then (0:ℚ) else calculate_complexity content)
        ∧ (if T = 0 then (0:ℚ) else calculate_complexity content) < T) := by
      by_cases hT : T = 0
      · simp [hT]
      · simp only [if_neg hT]
        rcases hscore with h | h
        · rw [h]; exact fun hx => lt_irrefl T hx.2
        · rw [h]; exact fun hx => lt_irrefl 0 hx.1
    by_cases hm : hasNonCveMarker content = true <;>
      cases hok : (check_rule validate oracle attemptFix content).ok <;>
      cases hy : searchCveYear content <;>
      simp [routeFile, hc, hw, hm, hok, hy] <;>
      first
        | exact fun h => absurd h (by decide)
        | exact fun h => cveYearFolder_ne_weak _ h

/-- Witness for claim C1: a concrete rule text with score 0 and no weak
indicator is not routed to the weak bucket. -/
theorem c1_routing_policy_witness :
    (calculate_complexity (("rule x").toList) = 100 ∨
      calculate_complexity (("rule x").toList) = 0)
    ∧ hasWeakIndicator (("rule x").toList) = false
    ∧ (routeFile (fun _ => true) (fun _ => none) true 100 (("rule x").toList)).1 ≠
        some weakRulesFolder :=
  ⟨Or.inr (by decide), by decide,
    c1_routing_policy.2 (fun _ => true) (fun _ => none) true 100 (("rule x").toList)
      (Or.inr (by decide)) (by decide)⟩

theorem unacceptable_nil : is_unacceptable_yara_rule_response [] = false := by decide

/-- Claim C4: the validate-and-repair procedure calls the repair oracle at
most once and the validator at most twice (one bounded repair attempt,
re-validated with repair disabled); an unacceptable oracle fix reports
failure with no second validator invocation and no content change; the
original content is replaced exactly by a fixed text that passed the second
validation; and both repair-disabled-and-invalid and repair-failed report
failure. -/
theorem c4_repair_bound :
    (∀ (val : List Char → Bool) (o : List Char → Option (List Char)) (a : Bool)
       (c : List Char), (check_rule val o a c).oracleCalls ≤ 1)
  ∧ (∀ (val : List Char → Bool) (o : List Char → Option (List Char)) (a : Bool)
       (c : List Char), (check_rule val o a c).validatorCalls ≤ 2)
  ∧ (∀ (val : List Char → Bool) (o : List Char → Option (List Char)) (c fixed : List Char),
       val c = false → fix_yara_rule o c = some fixed →
       is_unacceptable_yara_rule_response fixed = true →
       check_rule val o true c =
         { ok := false, content := c, repaired := false,
           oracleCalls := 1, validatorCalls := 1 })
  ∧ (∀ (val : List Char → Bool) (o : List Char → Option (List Char)) (a : Bool)
       (c : List Char),
       (check_rule val o a c).repaired = true ∨ (check_rule val o a c).content ≠ c →
       (check_rule val o a c).ok = true ∧ val (check_rule val o a c).content = true ∧
         fix_yara_rule o c = some (check_rule val o a c).content)
  ∧ (∀ (val : List Char → Bool) (o : List Char → Option (List Char)) (c : List Char),
       (check_rule val o false c).ok = val c)
  ∧ (∀ (val : List Char → Bool) (o : List Char → Option (List Char)) (c fixed : List Char),
       val c = false → fix_yara_rule o c = some fixed → val fixed = false →
       (check_rule val o true c).ok = false) := by
  have hcase : ∀ (val : List Char → Bool) (o : List Char → Option (List Char)) (c : List Char),
      (check_rule val o true c).oracleCalls ≤ 1 ∧
      (check_rule val o true c).validatorCalls ≤ 2 ∧
      ((check_rule val o true c).repaired = true ∨ (check_rule val o true c).content ≠ c →
        (check_rule val o true c).ok = true ∧ val (check_rule val o true c).content = true ∧
        fix_yara_rule o c = some (check_rule val o true c).content) := by
    intro val o c
    unfold check_rule
    by_cases hv : val c = true
    · simp [hv]
    · simp only [Bool.not_eq_true] at hv
      simp only [hv, Bool.false_eq_true, if_false]
      cases hf : fix_yara_rule o c with
      | none => simp
      | some fixed =>
        by_cases he : fixed.isEmpty
        · simp [he]
        · simp only [he, if_false]
          by_cases hu : is_unacceptable_yara_rule_response fixed = true
          · simp [hu]
          · simp only [Bool.not_eq_true] at hu
            simp only [hu, Bool.false_eq_true, if_false, check_rule_base]
            cases hr : val fixed
            · simp [hr]
            · simp [hr]
  refine ⟨?_, ?_, ?_, ?_, ?_, ?_⟩
  · intro val o a c
    cases a
    · simp [check_rule, check_rule_base]
    · exact (hcase val o c).1
  · intro val o a c
    cases a
    · simp [check_rule, check_rule_base]
    · exact (hcase val o c).2.1
  · intro val o c fixed hv hf hu
    have hne : ¬ fixed.isEmpty := by
      intro he
      rw [List.isEmpty_iff] at he
      rw [he] at hu
      rw [unacceptable_nil] at hu
      cases hu
    unfold check_rule
    simp [hv, hf, hne, hu]
  · intro val o a c
    cases a
    · intro h
      exfalso
      simp [check_rule, check_rule_base] at h
    · exact (hcase val o c).2.2
  · intro val o c
    simp [check_rule, check_rule_base]
  · intro val o c fixed hv hf hr
    unfold check_rule
    by_cases he : fixed.isEmpty
    · simp [hv, hf, he]
    · by_cases hu : is_unacceptable_yara_rule_response fixed = true
      · simp [hv, hf, he, hu]
      · simp [hv, hf, he, hu, check_rule_base, hr]

/-- Witness for claim C4: a concrete validator that always fails and an
oracle whose fix contains a placeholder marker; the procedure reports failure
after one oracle call and one validator call, leaving the content unchanged. -/
theorem c4_repair_bound_witness :
    (fun _ => false : List Char → Bool) (("bad").toList) = false
    ∧ fix_yara_rule (fun _ => some (("$data placeholder").toList)) (("bad").toList)
        = some (("$data placeholder").toList)
    ∧ is_unacceptable_yara_rule_response (("$data placeholder").toList) = true
    ∧ check_rule (fun _ => false) (fun _ => some (("$data placeholder").toList)) true
        (("bad").toList)
        = { ok := false, content := ("bad").toList, repaired := false,
            oracleCalls := 1, validatorCalls := 1 } :=
  ⟨rfl, by decide, by decide,
    c4_repair_bound.2.2.1 (fun _ => false) (fun _ => some (("$data placeholder").toList))
      (("bad").toList) (("$data placeholder").toList) rfl (by decide) (by decide)⟩

/-- Claim C9: the complexity gate rejects a candidate pattern exactly when at
least one of the five conditions holds (length outside the inclusive
configured range, too many quantifier tokens, too many occurrences of some
single advanced-construct type, too many escaped sequences, or character
classes plus alternations over the combined bound); in particular a pattern
of length MIN_REGEX_LENGTH - 1 = 19 is rejected and one of exactly
MIN_REGEX_LENGTH = 20 is accepted when nothing else is violated. -/
theorem c9_regex_gate :
    (∀ (b : RegexBounds) (r : List Char),
       is_regex_too_complex b r = true ↔
         ((r.length > b.max_regex_length ∨ r.length < b.min_regex_length)
          ∨ countQuantifiers r > b.max_nested_quantifiers
          ∨ (∃ p, p ∈ advancedConstructs ∧ countConstruct p r > b.max_advanced_constructs)
          ∨ countEscaped r > b.max_escaped_characters
          ∨ countClasses r + countPipes r > b.max_classes_alternation))
    ∧ is_regex_too_complex defaultRegexBounds (List.replicate 19 'a') = true
    ∧ is_regex_too_complex defaultRegexBounds (List.replicate 20 'a') = false := by
  refine ⟨?_, by decide, by decide⟩
  intro b r
  unfold is_regex_too_complex
  by_cases h1 : r.length > b.max_regex_length ∨ r.length < b.min_regex_length
  · rw [if_pos (by simp only [Bool.or_eq_true, decide_eq_true_eq]; exact h1)]
    simp only [true_iff]
    exact Or.inl h1
  · rw [if_neg (by simp only [Bool.or_eq_true, decide_eq_true_eq]; exact h1)]
    by_cases h2 : countQuantifiers r > b.max_nested_quantifiers
    · rw [if_pos h2]
      simp only [true_iff]
      exact Or.inr (Or.inl h2)
    · rw [if_neg h2]
      by_cases h3 : (advancedConstructs.any
          (fun p => countConstruct p r > b.max_advanced_constructs)) = true
      · rw [if_pos h3]
        rw [List.any_eq_true] at h3
        simp only [decide_eq_true_eq] at h3
        obtain ⟨p, hp, hgt⟩ := h3
        simp only [true_iff]
        exact Or.inr (Or.inr (Or.inl ⟨p, hp, hgt⟩))
      · rw [if_neg h3]
        rw [List.any_eq_true] at h3
        simp only [decide_eq_true_eq] at h3
        push_neg at h3
        by_cases h4 : countEscaped r > b.max_escaped_characters
        · rw [if_pos h4]
          simp only [true_iff]
          exact Or.inr (Or.inr (Or.inr (Or.inl h4)))
        · rw [if_neg h4]
          by_cases h5 : countClasses r + countPipes r > b.max_classes_alternation
          · rw [if_pos h5]
            simp only [true_iff]
            exact Or.inr (Or.inr (Or.inr (Or.inr h5)))
          · rw [if_neg h5]
            simp only [Bool.false_eq_true, false_iff]
            intro hcon
            rcases hcon with hx | hx | ⟨p, hp, hx⟩ | hx | hx
            · exact h1 hx
            · exact h2 hx
            · exact Nat.not_lt.mpr (h3 p hp) hx
            · exact h4 hx
            · exact h5 hx

/-! ### Helper lemmas about one routing step -/

/-- With repair disabled the repair machinery never rewrites the file. -/
theorem routeFile_nofix_rew (v : List Char → Bool) (o : List Char → Option (List Char))
    (T : ℚ) (c : List Char) : (routeFile v o false T c).2 = none := by
  unfold routeFile check_rule check_rule_base
  split_ifs <;> try rfl
  all_goals (cases hy : searchCveYear c <;> simp only [hy] <;> split_ifs <;> simp_all)

/-- A non-yar name is skipped untouched. -/
theorem processOne_skip (v : List Char → Bool) (o : List Char → Option (List Char))
    (cfg : Config) (T : ℚ) (st : PassResult) (n : List Char)
    (hn : ¬ trailsWith yarSuffix n = true) :
    processOne v o cfg T st n = .ok st := by
  unfold processOne
  rw [if_neg hn]

/-- The reads log of one processed content: exactly one appended name. -/
theorem processContent_reads (v : List Char → Bool) (o : List Char → Option (List Char))
    (cfg : Config) (T : ℚ) (st : PassResult) (n content : List Char) :
    (processContent v o cfg T st n content).reads = st.reads ++ [n] := by
  unfold processContent
  rcases hp : routeFile v o cfg.fix_bad_rules T content with ⟨dest, rew⟩
  cases rew <;> cases dest <;> simp [doMove]

theorem processOne_reads (v : List Char → Bool) (o : List Char → Option (List Char))
    (cfg : Config) (T : ℚ) (st : PassResult) (n : List Char) (st2 : PassResult)
    (h : processOne v o cfg T st n = .ok st2) :
    (trailsWith yarSuffix n = true ∧ st2.reads = st.reads ++ [n])
    ∨ (trailsWith yarSuffix n = false ∧ st2.reads = st.reads) := by
  unfold processOne at h
  by_cases hy : trailsWith yarSuffix n = true
  · rw [if_pos hy] at h
    left
    refine ⟨hy, ?_⟩
    cases hl : lookupRoot st.fs n with
    | none => rw [hl] at h; cases h
    | some oc =>
      cases oc with
      | none => rw [hl] at h; cases h
      | some content =>
        rw [hl] at h
        cases h
        exact processContent_reads v o cfg T st n content
  · rw [if_neg hy] at h
    cases h
    right
    exact ⟨by simp [hy], rfl⟩

/-! ### Association-list facts about the filesystem model -/

theorem rootNames_writeRoot (fs : FS) (n : List Char) (c : Option (List Char)) :
    rootNames (writeRoot fs n c) = rootNames fs := by
  unfold rootNames writeRoot
  simp only []
  generalize fs.root = l
  induction l with
  | nil => rfl
  | cons e rest ih =>
    simp only [List.map_cons, List.cons.injEq]
    constructor
    · by_cases he : e.1 = n
      · rw [if_pos he]; exact he.symm
      · rw [if_neg he]
    · exact ih

theorem lookupRoot_writeRoot_ne (fs : FS) (n : List Char) (c : Option (List Char))
    (m : List Char) (h : ¬ m = n) :
    lookupRoot (writeRoot fs n c) m = lookupRoot fs m := by
  unfold lookupRoot writeRoot
  simp only []
  generalize fs.root = l
  induction l with
  | nil => rfl
  | cons e rest ih =>
    simp only [List.map_cons]
    by_cases he : e.1 = n
    · rw [if_pos he]
      rw [List.find?_cons_of_neg _ (by simp only [beq_iff_eq]; exact fun hx => h hx.symm),
        List.find?_cons_of_neg _
          (by simp only [beq_iff_eq]; exact fun hx => h (hx.symm.trans he))]
      exact ih
    · rw [if_neg he]
      by_cases hm : e.1 = m
      · rw [List.find?_cons_of_pos _ (by simp [beq_iff_eq, hm]),
          List.find?_cons_of_pos _ (by simp [beq_iff_eq, hm])]
      · rw [List.find?_cons_of_neg _ (by simp [beq_iff_eq, hm]),
          List.find?_cons_of_neg _ (by simp [beq_iff_eq, hm])]
        exact ih

theorem lookupRoot_removeRoot_ne (fs : FS) (n m : List Char) (h : ¬ m = n) :
    lookupRoot (removeRoot fs n) m = lookupRoot fs m := by
  unfold lookupRoot removeRoot
  simp only []
  generalize fs.root = l
  induction l with
  | nil => rfl
  | cons e rest ih =>
    by_cases he : e.1 = n
    · rw [List.filter_cons_of_neg (by simp [he])]
      rw [List.find?_cons_of_neg _
        (by simp only [beq_iff_eq]; exact fun hx => h ((hx.symm.trans he).symm.symm))]
      exact ih
    · rw [List.filter_cons_of_pos (by simp [he])]
      by_cases hm : e.1 = m
      · rw [List.find?_cons_of_pos _ (by simp [beq_iff_eq, hm]),
          List.find?_cons_of_pos _ (by simp [beq_iff_eq, hm])]
      · rw [List.find?_cons_of_neg _ (by simp [beq_iff_eq, hm]),
          List.find?_cons_of_neg _ (by simp [beq_iff_eq, hm])]
        exact ih

theorem mem_rootNames_removeRoot (fs : FS) (n m : List Char)
    (h : m ∈ rootNames (removeRoot fs n)) : m ∈ rootNames fs ∧ ¬ m = n := by
  unfold rootNames removeRoot at h
  unfold rootNames
  simp only [List.mem_map, List.mem_filter] at h
  obtain ⟨e, ⟨he1, he2⟩, he3⟩ := h
  refine ⟨List.mem_map.mpr ⟨e, he1, he3⟩, ?_⟩
  intro hmn
  have hne : ¬ e.1 = n := by simpa using he2
  exact hne (he3.trans hmn)

theorem putFile_find_ne (files : List (List Char × Option (List Char)))
    (n : List Char) (c : Option (List Char)) (m : List Char) (h : ¬ m = n) :
    (putFile files n c).find? (fun e => e.1 == m) = files.find? (fun e => e.1 == m) := by
  unfold putFile
  split_ifs with hx
  · clear hx
    induction files with
    | nil => rfl
    | cons e rest ih =>
      by_cases he : e.1 = n
      · rw [List.map_cons, if_pos he]
        rw [List.find?_cons_of_neg _ (by simp only [beq_iff_eq]; exact fun hy => h hy.symm),
          List.find?_cons_of_neg _
            (by simp only [beq_iff_eq]; exact fun hy => h (hy.symm.trans he))]
        exact ih
      · rw [List.map_cons, if_neg he]
        by_cases hm : e.1 = m
        · rw [List.find?_cons_of_pos _ (by simp [beq_iff_eq, hm]),
            List.find?_cons_of_pos _ (by simp [beq_iff_eq, hm])]
        · rw [List.find?_cons_of_neg _ (by simp [beq_iff_eq, hm]),
            List.find?_cons_of_neg _ (by simp [beq_iff_eq, hm])]
          exact ih
  · induction files with
    | nil =>
      simp only [List.nil_append]
      rw [List.find?_cons_of_neg _ (by simp only [beq_iff_eq]; exact fun hy => h hy.symm)]
    | cons e rest ih =>
      simp only [List.cons_append]
      by_cases hm : e.1 = m
      · rw [List.find?_cons_of_pos _ (by simp [beq_iff_eq, hm]),
          List.find?_cons_of_pos _ (by simp [beq_iff_eq, hm])]
      · rw [List.find?_cons_of_neg _ (by simp [beq_iff_eq, hm]),
          List.find?_cons_of_neg _ (by simp [beq_iff_eq, hm])]
        exact ih (fun hall => hx (by simp at hall ⊢; tauto))

/-- Appending a fresh empty bucket never changes a bucket lookup. -/
theorem lookupBucket_append_empty (rt rt2 : List (List Char × Option (List Char)))
    (bs : List (List Char × List (List Char × Option (List Char))))
    (folder b m : List Char) :
    lookupBucket ⟨rt, bs ++ [(folder, [])]⟩ b m = lookupBucket ⟨rt2, bs⟩ b m := by
  unfold lookupBucket
  simp only []
  induction bs with
  | nil =>
    simp only [List.nil_append, List.find?_nil, Option.none_bind]
    by_cases hb : folder = b
    · rw [List.find?_cons_of_pos _ (by simp [beq_iff_eq, hb])]
      simp
    · rw [List.find?_cons_of_neg _ (by simp [beq_iff_eq, hb])]
      simp
  | cons e rest ih =>
    simp only [List.cons_append]
    by_cases hb : e.1 = b
    · rw [List.find?_cons_of_pos _ (by simp [beq_iff_eq, hb]),
        List.find?_cons_of_pos _ (by simp [beq_iff_eq, hb])]
    · rw [List.find?_cons_of_neg _ (by simp [beq_iff_eq, hb]),
        List.find?_cons_of_neg _ (by simp [beq_iff_eq, hb])]
      exact ih

/-- Placing a file named `n` into the destination bucket does not change the
lookup of any other file name in any bucket. -/
theorem lookupBucket_map_put (rt rt2 : List (List Char × Option (List Char)))
    (bs : List (List Char × List (List Char × Option (List Char))))
    (folder n : List Char) (c : Option (List Char)) (b m : List Char) (h : ¬ m = n) :
    lookupBucket
        ⟨rt, bs.map (fun e => if e.1 = folder then (folder, putFile e.2 n c) else e)⟩ b m
      = lookupBucket ⟨rt2, bs⟩ b m := by
  unfold lookupBucket
  simp only []
  induction bs with
  | nil => rfl
  | cons e rest ih =>
    simp only [List.map_cons]
    by_cases hb : e.1 = b
    · have hkey : (if e.1 = folder then (folder, putFile e.2 n c) else e).1 = e.1 := by
        split_ifs with hf
        · exact hf.symm
        · rfl
      rw [List.find?_cons_of_pos _ (by simp only [beq_iff_eq]; rw [hkey]; exact hb),
        List.find?_cons_of_pos _ (by simp [beq_iff_eq, hb])]
      by_cases hf : e.1 = folder
      · rw [if_pos hf]
        simp only [Option.some_bind]
        rw [putFile_find_ne e.2 n c m h]
      · rw [if_neg hf]
    · have hkey : (if e.1 = folder then (folder, putFile e.2 n c) else e).1 = e.1 := by
        split_ifs with hf
        · exact hf.symm
        · rfl
      rw [List.find?_cons_of_neg _ (by simp only [beq_iff_eq]; rw [hkey]; exact hb),
        List.find?_cons_of_neg _ (by simp [beq_iff_eq, hb])]
      exact ih

/-- move_or_copy_file changes bucket lookups only for the moved name. -/
theorem lookupBucket_move_or_copy_ne (fs : FS) (n folder : List Char)
    (c : Option (List Char)) (cm sm : Bool) (b m : List Char) (h : ¬ m = n) :
    lookupBucket (move_or_copy_file fs n folder c cm sm) b m = lookupBucket fs b m := by
  unfold move_or_copy_file
  by_cases hs : sm = true
  · rw [if_pos hs]
  · rw [if_neg hs]
    simp only []
    by_cases ha : (fs.buckets.any (fun e => e.1 == folder)) = true
    · rw [if_pos ha]
      by_cases hc : cm = true
      · rw [if_pos hc]
        exact lookupBucket_map_put fs.root fs.root fs.buckets folder n c b m h
      · rw [if_neg hc]
        unfold removeRoot
        exact lookupBucket_map_put _ fs.root fs.buckets folder n c b m h
    · rw [if_neg ha]
      by_cases hc : cm = true
      · rw [if_pos hc]
        rw [lookupBucket_map_put fs.root fs.root _ folder n c b m h]
        exact lookupBucket_append_empty fs.root fs.root fs.buckets folder b m
      · rw [if_neg hc]
        unfold removeRoot
        rw [lookupBucket_map_put _ fs.root _ folder n c b m h]
        exact lookupBucket_append_empty fs.root fs.root fs.buckets folder b m

/-- The root of a move/copy result: unchanged, or with the moved name
filtered out; in particular root entries of other names are untouched, and
in non-silent move mode the name is gone. -/
theorem move_or_copy_root (fs : FS) (n folder : List Char) (c : Option (List Char))
    (cm sm : Bool) :
    (move_or_copy_file fs n folder c cm sm).root = fs.root ∨
    (move_or_copy_file fs n folder c cm sm).root
      = fs.root.filter (fun e => !(e.1 == n)) := by
  unfold move_or_copy_file removeRoot
  split_ifs <;> simp

theorem move_or_copy_root_move (fs : FS) (n folder : List Char)
    (c : Option (List Char)) :
    (move_or_copy_file fs n folder c false false).root
      = fs.root.filter (fun e => !(e.1 == n)) := by
  unfold move_or_copy_file removeRoot
  simp

theorem move_or_copy_silent (fs : FS) (n folder : List Char) (c : Option (List Char))
    (cm : Bool) : move_or_copy_file fs n folder c cm true = fs := by
  unfold move_or_copy_file
  rw [if_pos rfl]

theorem writeRoot_buckets (fs : FS) (n : List Char) (c : Option (List Char)) :
    (writeRoot fs n c).buckets = fs.buckets := rfl

theorem move_or_copy_buckets_silent (fs : FS) (n folder : List Char)
    (c : Option (List Char)) (cm : Bool) :
    (move_or_copy_file fs n folder c cm true).buckets = fs.buckets := by
  rw [move_or_copy_silent]

/-! ### Per-step lemmas about processContent and processOne -/

theorem processContent_lookupRoot_ne (v : List Char → Bool)
    (o : List Char → Option (List Char)) (cfg : Config) (T : ℚ) (st : PassResult)
    (n content m : List Char) (h : ¬ m = n) :
    lookupRoot (processContent v o cfg T st n content).fs m = lookupRoot st.fs m := by
  unfold processContent
  rcases hp : routeFile v o cfg.fix_bad_rules T content with ⟨dest, rew⟩
  have hmid : ∀ fsx : FS, fsx.root = st.fs.root ∨
      fsx.root = (writeRoot st.fs n (some (rew.getD content))).root →
      lookupRoot fsx m = lookupRoot st.fs m := by
    intro fsx hx
    rcases hx with hx | hx
    · unfold lookupRoot; rw [hx]
    · unfold lookupRoot
      rw [hx]
      have := lookupRoot_writeRoot_ne st.fs n (some (rew.getD content)) m h
      unfold lookupRoot at this
      exact this
  cases rew with
  | none =>
    cases dest with
    | none => simp only []
    | some folder =>
      simp only [doMove, Option.getD_none]
      rcases move_or_copy_root st.fs n folder
          (some content) cfg.copy_mode cfg.silent_mode with hr | hr
      · apply hmid
        left
        rw [hr]
      · unfold lookupRoot
        rw [hr]
        have := lookupRoot_removeRoot_ne st.fs n m h
        unfold lookupRoot removeRoot at this
        simpa using this
  | some newC =>
    cases dest with
    | none =>
      simp only []
      exact lookupRoot_writeRoot_ne st.fs n (some newC) m h
    | some folder =>
      simp only [doMove, Option.getD_some]
      rcases move_or_copy_root (writeRoot st.fs n (some newC)) n folder
          (some newC) cfg.copy_mode cfg.silent_mode with hr | hr
      · unfold lookupRoot
        rw [hr]
        have := lookupRoot_writeRoot_ne st.fs n (some newC) m h
        unfold lookupRoot at this
        exact this
      · unfold lookupRoot
        rw [hr]
        have h2 := lookupRoot_removeRoot_ne (writeRoot st.fs n (some newC)) n m h
        unfold lookupRoot removeRoot at h2
        rw [h2]
        have h3 := lookupRoot_writeRoot_ne st.fs n (some newC) m h
        unfold lookupRoot at h3
        exact h3

theorem processContent_lookupBucket_ne (v : List Char → Bool)
    (o : List Char → Option (List Char)) (cfg : Config) (T : ℚ) (st : PassResult)
    (n content b m : List Char) (h : ¬ m = n) :
    lookupBucket (processContent v o cfg T st n content).fs b m =
      lookupBucket st.fs b m := by
  unfold processContent
  rcases hp : routeFile v o cfg.fix_bad_rules T content with ⟨dest, rew⟩
  have hbk : ∀ c0 : Option (List Char),
      lookupBucket (writeRoot st.fs n c0) b m = lookupBucket st.fs b m := by
    intro c0
    unfold lookupBucket
    rw [writeRoot_buckets]
  cases rew with
  | none =>
    cases dest with
    | none => simp only []
    | some folder =>
      simp only [doMove, Option.getD_none]
      exact lookupBucket_move_or_copy_ne st.fs n folder (some content)
        cfg.copy_mode cfg.silent_mode b m h
  | some newC =>
    cases dest with
    | none =>
      simp only []
      exact hbk (some newC)
    | some folder =>
      simp only [doMove, Option.getD_some]
      rw [lookupBucket_move_or_copy_ne (writeRoot st.fs n (some newC)) n folder
        (some newC) cfg.copy_mode cfg.silent_mode b m h]
      exact hbk (some newC)

theorem processContent_rootNames_sub (v : List Char → Bool)
    (o : List Char → Option (List Char)) (cfg : Config) (T : ℚ) (st : PassResult)
    (n content m : List Char)
    (h : m ∈ rootNames (processContent v o cfg T st n content).fs) :
    m ∈ rootNames st.fs := by
  unfold processContent at h
  rcases hp : routeFile v o cfg.fix_bad_rules T content with ⟨dest, rew⟩
  rw [hp] at h
  have hwr : ∀ c0 mx, mx ∈ rootNames (writeRoot st.fs n c0) → mx ∈ rootNames st.fs := by
    intro c0 mx hx
    rwa [rootNames_writeRoot] at hx
  have hfil : ∀ (fsx : FS) mx, mx ∈ rootNames fsx →
      (∀ fsy : FS, fsy.root = fsx.root.filter (fun e => !(e.1 == n)) →
        True) := by intro _ _ _ _ _; trivial
  cases rew with
  | none =>
    cases dest with
    | none => exact h
    | some folder =>
      simp only [doMove, Option.getD_none] at h
      rcases move_or_copy_root st.fs n folder
          (some content) cfg.copy_mode cfg.silent_mode with hr | hr
      · unfold rootNames at h ⊢
        rwa [hr] at h
      · unfold rootNames at h
        rw [hr] at h
        simp only [List.mem_map, List.mem_filter] at h
        obtain ⟨e, ⟨he1, _⟩, he3⟩ := h
        exact List.mem_map.mpr ⟨e, he1, he3⟩
  | some newC =>
    cases dest with
    | none =>
      exact hwr (some newC) m h
    | some folder =>
      simp only [doMove, Option.getD_some] at h
      rcases move_or_copy_root (writeRoot st.fs n (some newC)) n folder
          (some newC) cfg.copy_mode cfg.silent_mode with hr | hr
      · unfold rootNames at h
        rw [hr] at h
        exact hwr (some newC) m (by rwa [rootNames] )
      · unfold rootNames at h
        rw [hr] at h
        simp only [List.mem_map, List.mem_filter] at h
        obtain ⟨e, ⟨he1, _⟩, he3⟩ := h
        exact hwr (some newC) m (List.mem_map.mpr ⟨e, he1, he3⟩)

theorem processContent_actions (v : List Char → Bool)
    (o : List Char → Option (List Char)) (cfg : Config) (T : ℚ) (st : PassResult)
    (n content : List Char) :
    (processContent v o cfg T st n content).actions = st.actions ∨
    ∃ folder, (processContent v o cfg T st n content).actions
      = st.actions ++ [(n, folder)] := by
  unfold processContent
  rcases hp : routeFile v o cfg.fix_bad_rules T content with ⟨dest, rew⟩
  cases rew <;> cases dest <;> simp [doMove]

theorem processContent_move_not_mem (v : List Char → Bool)
    (o : List Char → Option (List Char)) (cfg : Config) (T : ℚ) (st : PassResult)
    (n content : List Char) (hcm : cfg.copy_mode = false)
    (hsm : cfg.silent_mode = false)
    (hact : ¬ (processContent v o cfg T st n content).actions = st.actions) :
    ¬ n ∈ rootNames (processContent v o cfg T st n content).fs := by
  unfold processContent at hact ⊢
  rcases hp : routeFile v o cfg.fix_bad_rules T content with ⟨dest, rew⟩
  have hnot : ∀ rt : List (List Char × Option (List Char)),
      ¬ n ∈ List.map Prod.fst (rt.filter (fun e => !(e.1 == n))) := by
    intro rt hmem
    simp only [List.mem_map, List.mem_filter] at hmem
    obtain ⟨e, ⟨_, he2⟩, he3⟩ := hmem
    exact (by simpa using he2 : ¬ e.1 = n) he3
  cases rew with
  | none =>
    cases dest with
    | none => exact absurd (by rw [hp]) hact
    | some folder =>
      simp only [doMove]
      unfold rootNames
      rw [hcm, hsm, move_or_copy_root_move]
      exact hnot _
  | some newC =>
    cases dest with
    | none => exact absurd (by rw [hp]) hact
    | some folder =>
      simp only [doMove]
      unfold rootNames
      rw [hcm, hsm, move_or_copy_root_move]
      exact hnot _

theorem processContent_silent_frame (v : List Char → Bool)
    (o : List Char → Option (List Char)) (cfg : Config) (T : ℚ) (st : PassResult)
    (n content : List Char) (hs : cfg.silent_mode = true) :
    (processContent v o cfg T st n content).fs.buckets = st.fs.buckets ∧
    rootNames (processContent v o cfg T st n content).fs = rootNames st.fs := by
  unfold processContent
  rcases hp : routeFile v o cfg.fix_bad_rules T content with ⟨dest, rew⟩
  cases rew with
  | none =>
    cases dest with
    | none => exact ⟨rfl, rfl⟩
    | some folder =>
      simp only [doMove, hs]
      rw [move_or_copy_silent]
      exact ⟨rfl, rfl⟩
  | some newC =>
    cases dest with
    | none =>
      exact ⟨writeRoot_buckets st.fs n (some newC), rootNames_writeRoot st.fs n (some newC)⟩
    | some folder =>
      simp only [doMove, hs]
      rw [move_or_copy_silent]
      exact ⟨writeRoot_buckets st.fs n (some newC), rootNames_writeRoot st.fs n (some newC)⟩

theorem processContent_silent_nofix (v : List Char → Bool)
    (o : List Char → Option (List Char)) (cfg : Config) (T : ℚ) (st : PassResult)
    (n content : List Char) (hs : cfg.silent_mode = true)
    (hf : cfg.fix_bad_rules = false) :
    (processContent v o cfg T st n content).fs = st.fs := by
  unfold processContent
  have hrew : (routeFile v o cfg.fix_bad_rules T content).2 = none := by
    rw [hf]
    exact routeFile_nofix_rew v o T content
  rcases hp : routeFile v o cfg.fix_bad_rules T content with ⟨dest, rew⟩
  rw [hp] at hrew
  simp only [] at hrew
  subst hrew
  cases dest with
  | none => rfl
  | some folder =>
    simp only [doMove, hs]
    rw [move_or_copy_silent]

/-- The shapes a successful step can take. -/
theorem processOne_ok_cases (v : List Char → Bool) (o : List Char → Option (List Char))
    (cfg : Config) (T : ℚ) (st : PassResult) (n : List Char) (st2 : PassResult)
    (h : processOne v o cfg T st n = .ok st2) :
    st2 = st ∨ ∃ content, trailsWith yarSuffix n = true ∧
      lookupRoot st.fs n = some (some content) ∧
      st2 = processContent v o cfg T st n content := by
  unfold processOne at h
  by_cases hy : trailsWith yarSuffix n = true
  · rw [if_pos hy] at h
    cases hl : lookupRoot st.fs n with
    | none => rw [hl] at h; cases h
    | some oc =>
      cases oc with
      | none => rw [hl] at h; cases h
      | some content =>
        rw [hl] at h
        refine Or.inr ⟨content, hy, rfl, ?_⟩
        exact (Except.ok.inj h).symm
  · rw [if_neg hy] at h
    cases h
    exact Or.inl rfl

/-- A yar-named file with readable content is processed. -/
theorem processOne_yar_ok (v : List Char → Bool) (o : List Char → Option (List Char))
    (cfg : Config) (T : ℚ) (st : PassResult) (n content : List Char)
    (hy : trailsWith yarSuffix n = true)
    (hl : lookupRoot st.fs n = some (some content)) :
    processOne v o cfg T st n = .ok (processContent v o cfg T st n content) := by
  unfold processOne
  rw [if_pos hy, hl]

/-! ### Whole-pass lemmas -/

/-- The reads of a successful pass segment: exactly the yar-suffixed names of
the processed listing, in order. -/
theorem processList_reads (v : List Char → Bool) (o : List Char → Option (List Char))
    (cfg : Config) (T : ℚ) :
    ∀ (ns : List (List Char)) (st st2 : PassResult),
      processList v o cfg T ns st = .ok st2 →
      st2.reads = st.reads ++ ns.filter (fun n => trailsWith yarSuffix n) := by
  intro ns
  induction ns with
  | nil =>
    intro st st2 h
    cases h
    simp
  | cons n rest ih =>
    intro st st2 h
    unfold processList at h
    cases hstep : processOne v o cfg T st n with
    | error e => rw [hstep] at h; cases h
    | ok mid =>
      rw [hstep] at h
      rcases processOne_reads v o cfg T st n mid hstep with ⟨hy, hr⟩ | ⟨hy, hr⟩
      · rw [ih mid st2 h, hr]
        rw [List.filter_cons_of_pos hy]
        simp
      · rw [ih mid st2 h, hr]
        rw [List.filter_cons_of_neg (by simp [hy])]

/-- A successful pass segment does not change root entries of names that are
not in the processed listing. -/
theorem processList_lookupRoot_ne (v : List Char → Bool)
    (o : List Char → Option (List Char)) (cfg : Config) (T : ℚ) :
    ∀ (ns : List (List Char)) (st st2 : PassResult) (m : List Char),
      processList v o cfg T ns st = .ok st2 → (∀ n ∈ ns, ¬ m = n) →
      lookupRoot st2.fs m = lookupRoot st.fs m := by
  intro ns
  induction ns with
  | nil =>
    intro st st2 m h _
    cases h
    rfl
  | cons n rest ih =>
    intro st st2 m h hm
    unfold processList at h
    cases hstep : processOne v o cfg T st n with
    | error e => rw [hstep] at h; cases h
    | ok mid =>
      rw [hstep] at h
      rw [ih mid st2 m h (fun x hx => hm x (List.mem_cons_of_mem n hx))]
      rcases processOne_ok_cases v o cfg T st n mid hstep with heq | ⟨content, _, _, heq⟩
      · rw [heq]
      · rw [heq]
        exact processContent_lookupRoot_ne v o cfg T st n content m
          (hm n (List.mem_cons_self n rest))

/-- A successful pass segment does not change bucket entries of names that
are not in the processed listing. -/
theorem processList_lookupBucket_ne (v : List Char → Bool)
    (o : List Char → Option (List Char)) (cfg : Config) (T : ℚ) :
    ∀ (ns : List (List Char)) (st st2 : PassResult) (b m : List Char),
      processList v o cfg T ns st = .ok st2 → (∀ n ∈ ns, ¬ m = n) →
      lookupBucket st2.fs b m = lookupBucket st.fs b m := by
  intro ns
  induction ns with
  | nil =>
    intro st st2 b m h _
    cases h
    rfl
  | cons n rest ih =>
    intro st st2 b m h hm
    unfold processList at h
    cases hstep : processOne v o cfg T st n with
    | error e => rw [hstep] at h; cases h
    | ok mid =>
      rw [hstep] at h
      rw [ih mid st2 b m h (fun x hx => hm x (List.mem_cons_of_mem n hx))]
      rcases processOne_ok_cases v o cfg T st n mid hstep with heq | ⟨content, _, _, heq⟩
      · rw [heq]
      · rw [heq]
        exact processContent_lookupBucket_ne v o cfg T st n content b m
          (hm n (List.mem_cons_self n rest))

/-- No pass segment ever adds a name to the root listing. -/
theorem processList_rootNames_sub (v : List Char → Bool)
    (o : List Char → Option (List Char)) (cfg : Config) (T : ℚ) :
    ∀ (ns : List (List Char)) (st st2 : PassResult) (m : List Char),
      processList v o cfg T ns st = .ok st2 → m ∈ rootNames st2.fs →
      m ∈ rootNames st.fs := by
  intro ns
  induction ns with
  | nil =>
    intro st st2 m h hm
    cases h
    exact hm
  | cons n rest ih =>
    intro st st2 m h hm
    unfold processList at h
    cases hstep : processOne v o cfg T st n with
    | error e => rw [hstep] at h; cases h
    | ok mid =>
      rw [hstep] at h
      have hmid := ih mid st2 m h hm
      rcases processOne_ok_cases v o cfg T st n mid hstep with heq | ⟨content, _, _, heq⟩
      · rwa [heq] at hmid
      · rw [heq] at hmid
        exact processContent_rootNames_sub v o cfg T st n content m hmid

/-- Every action of a successful pass segment was already present or names a
yar-suffixed member of the processed listing. -/
theorem processList_actions_sub (v : List Char → Bool)
    (o : List Char → Option (List Char)) (cfg : Config) (T : ℚ) :
    ∀ (ns : List (List Char)) (st st2 : PassResult) (a : List Char × List Char),
      processList v o cfg T ns st = .ok st2 → a ∈ st2.actions →
      a ∈ st.actions ∨ (a.1 ∈ ns ∧ trailsWith yarSuffix a.1 = true) := by
  intro ns
  induction ns with
  | nil =>
    intro st st2 a h ha
    cases h
    exact Or.inl ha
  | cons n rest ih =>
    intro st st2 a h ha
    unfold processList at h
    cases hstep : processOne v o cfg T st n with
    | error e => rw [hstep] at h; cases h
    | ok mid =>
      rw [hstep] at h
      rcases ih mid st2 a h ha with hmid | ⟨hmem, hyar⟩
      · rcases processOne_ok_cases v o cfg T st n mid hstep with heq | ⟨content, hy, _, heq⟩
        · rw [heq] at hmid
          exact Or.inl hmid
        · rw [heq] at hmid
          rcases processContent_actions v o cfg T st n content with hact | ⟨folder, hact⟩
          · rw [hact] at hmid
            exact Or.inl hmid
          · rw [hact] at hmid
            rcases List.mem_append.mp hmid with hmid | hmid
            · exact Or.inl hmid
            · have : a = (n, folder) := by simpa using hmid
              right
              rw [this]
              exact ⟨List.mem_cons_self n rest, hy⟩
      · exact Or.inr ⟨List.mem_cons_of_mem n hmem, hyar⟩

/-- In non-silent move mode, the invariant "every logged action names a file
no longer in the root" is preserved across a pass segment. -/
theorem processList_move_invariant (v : List Char → Bool)
    (o : List Char → Option (List Char)) (cfg : Config) (T : ℚ)
    (hcm : cfg.copy_mode = false) (hsm : cfg.silent_mode = false) :
    ∀ (ns : List (List Char)) (st st2 : PassResult),
      processList v o cfg T ns st = .ok st2 →
      (∀ a ∈ st.actions, ¬ a.1 ∈ rootNames st.fs) →
      ∀ a ∈ st2.actions, ¬ a.1 ∈ rootNames st2.fs := by
  intro ns
  induction ns with
  | nil =>
    intro st st2 h hinv
    cases h
    exact hinv
  | cons n rest ih =>
    intro st st2 h hinv
    unfold processList at h
    cases hstep : processOne v o cfg T st n with
    | error e => rw [hstep] at h; cases h
    | ok mid =>
      rw [hstep] at h
      apply ih mid st2 h
      rcases processOne_ok_cases v o cfg T st n mid hstep with heq | ⟨content, hy, hl, heq⟩
      · rw [heq]
        exact hinv
      · subst heq
        intro a ha
        rcases processContent_actions v o cfg T st n content with hact | ⟨folder, hact⟩
        · rw [hact] at ha
          intro hmem
          exact hinv a ha (processContent_rootNames_sub v o cfg T st n content a.1 hmem)
        · rw [hact] at ha
          rcases List.mem_append.mp ha with ha | ha
          · intro hmem
            exact hinv a ha (processContent_rootNames_sub v o cfg T st n content a.1 hmem)
          · have haeq : a = (n, folder) := by simpa using ha
            rw [haeq]
            apply processContent_move_not_mem v o cfg T st n content hcm hsm
            rw [hact]
            intro hbad
            have := congrArg List.length hbad
            simp at this

/-- A pass segment over distinct names whose yar files are all readable
succeeds. -/
theorem processList_isOk (v : List Char → Bool) (o : List Char → Option (List Char))
    (cfg : Config) (T : ℚ) :
    ∀ (ns : List (List Char)) (st : PassResult),
      ns.Nodup →
      (∀ n ∈ ns, trailsWith yarSuffix n = true →
        ∃ c, lookupRoot st.fs n = some (some c)) →
      ∃ st2, processList v o cfg T ns st = .ok st2 := by
  intro ns
  induction ns with
  | nil =>
    intro st _ _
    exact ⟨st, rfl⟩
  | cons n rest ih =>
    intro st hnd hread
    by_cases hy : trailsWith yarSuffix n = true
    · obtain ⟨c, hl⟩ := hread n (List.mem_cons_self n rest) hy
      have hstep := processOne_yar_ok v o cfg T st n c hy hl
      have hrest : ∀ m ∈ rest, trailsWith yarSuffix m = true →
          ∃ cx, lookupRoot (processContent v o cfg T st n c).fs m = some (some cx) := by
        intro m hm hmy
        obtain ⟨cx, hcx⟩ := hread m (List.mem_cons_of_mem n hm) hmy
        have hne : ¬ m = n := by
          intro he
          rw [he] at hm
          exact (List.nodup_cons.mp hnd).1 hm
        rw [processContent_lookupRoot_ne v o cfg T st n c m hne]
        exact ⟨cx, hcx⟩
      obtain ⟨st2, hrec⟩ := ih (processContent v o cfg T st n c)
        (List.nodup_cons.mp hnd).2 hrest
      refine ⟨st2, ?_⟩
      unfold processList
      rw [hstep]
      exact hrec
    · have hstep := processOne_skip v o cfg T st n hy
      obtain ⟨st2, hrec⟩ := ih st (List.nodup_cons.mp hnd).2
        (fun m hm hmy => hread m (List.mem_cons_of_mem n hm) hmy)
      refine ⟨st2, ?_⟩
      unfold processList
      rw [hstep]
      exact hrec

/-- In silent mode a pass segment creates no bucket and moves no file: the
bucket directories and the root listing are untouched. -/
theorem processList_silent_frame (v : List Char → Bool)
    (o : List Char → Option (List Char)) (cfg : Config) (T : ℚ)
    (hs : cfg.silent_mode = true) :
    ∀ (ns : List (List Char)) (st st2 : PassResult),
      processList v o cfg T ns st = .ok st2 →
      st2.fs.buckets = st.fs.buckets ∧ rootNames st2.fs = rootNames st.fs := by
  intro ns
  induction ns with
  | nil =>
    intro st st2 h
    cases h
    exact ⟨rfl, rfl⟩
  | cons n rest ih =>
    intro st st2 h
    unfold processList at h
    cases hstep : processOne v o cfg T st n with
    | error e => rw [hstep] at h; cases h
    | ok mid =>
      rw [hstep] at h
      obtain ⟨hb, hr⟩ := ih mid st2 h
      rcases processOne_ok_cases v o cfg T st n mid hstep with heq | ⟨content, _, _, heq⟩
      · rw [heq] at hb hr
        exact ⟨hb, hr⟩
      · rw [heq] at hb hr
        obtain ⟨hb2, hr2⟩ := processContent_silent_frame v o cfg T st n content hs
        exact ⟨hb.trans hb2, hr.trans hr2⟩

/-- In silent mode with repair disabled a pass segment leaves the filesystem
exactly as it was. -/
theorem processList_silent_nofix (v : List Char → Bool)
    (o : List Char → Option (List Char)) (cfg : Config) (T : ℚ)
    (hs : cfg.silent_mode = true) (hf : cfg.fix_bad_rules = false) :
    ∀ (ns : List (List Char)) (st st2 : PassResult),
      processList v o cfg T ns st = .ok st2 → st2.fs = st.fs := by
  intro ns
  induction ns with
  | nil =>
    intro st st2 h
    cases h
    rfl
  | cons n rest ih =>
    intro st st2 h
    unfold processList at h
    cases hstep : processOne v o cfg T st n with
    | error e => rw [hstep] at h; cases h
    | ok mid =>
      rw [hstep] at h
      have hmid := ih mid st2 h
      rcases processOne_ok_cases v o cfg T st n mid hstep with heq | ⟨content, _, _, heq⟩
      · rw [heq] at hmid
        exact hmid
      · rw [heq] at hmid
        rw [hmid]
        exact processContent_silent_nofix v o cfg T st n content hs hf

/-- Root entries whose name does not end in ".yar" are never touched. -/
theorem processList_lookupRoot_nonyar (v : List Char → Bool)
    (o : List Char → Option (List Char)) (cfg : Config) (T : ℚ) :
    ∀ (ns : List (List Char)) (st st2 : PassResult) (m : List Char),
      processList v o cfg T ns st = .ok st2 → ¬ trailsWith yarSuffix m = true →
      lookupRoot st2.fs m = lookupRoot st.fs m := by
  intro ns
  induction ns with
  | nil =>
    intro st st2 m h _
    cases h
    rfl
  | cons n rest ih =>
    intro st st2 m h hm
    unfold processList at h
    cases hstep : processOne v o cfg T st n with
    | error e => rw [hstep] at h; cases h
    | ok mid =>
      rw [hstep] at h
      rw [ih mid st2 m h hm]
      rcases processOne_ok_cases v o cfg T st n mid hstep with heq | ⟨content, hy, _, heq⟩
      · rw [heq]
      · rw [heq]
        exact processContent_lookupRoot_ne v o cfg T st n content m
          (fun he => hm (he ▸ hy))

/-- A changed bucket entry is named after a processed root yar file. -/
theorem processList_lookupBucket_changed (v : List Char → Bool)
    (o : List Char → Option (List Char)) (cfg : Config) (T : ℚ) :
    ∀ (ns : List (List Char)) (st st2 : PassResult) (b m : List Char),
      processList v o cfg T ns st = .ok st2 →
      ¬ lookupBucket st2.fs b m = lookupBucket st.fs b m →
      m ∈ ns ∧ trailsWith yarSuffix m = true := by
  intro ns
  induction ns with
  | nil =>
    intro st st2 b m h hch
    cases h
    exact absurd rfl hch
  | cons n rest ih =>
    intro st st2 b m h hch
    unfold processList at h
    cases hstep : processOne v o cfg T st n with
    | error e => rw [hstep] at h; cases h
    | ok mid =>
      rw [hstep] at h
      by_cases hmid : lookupBucket mid.fs b m = lookupBucket st.fs b m
      · have := ih mid st2 b m h (fun he => hch (he.trans hmid))
        exact ⟨List.mem_cons_of_mem n this.1, this.2⟩
      · rcases processOne_ok_cases v o cfg T st n mid hstep with heq | ⟨content, hy, _, heq⟩
        · rw [heq] at hmid
          exact absurd rfl hmid
        · by_cases hmn : m = n
          · exact ⟨hmn ▸ List.mem_cons_self n rest, hmn ▸ hy⟩
          · rw [heq] at hmid
            exact absurd
              (processContent_lookupBucket_ne v o cfg T st n content b m hmn) hmid

/-! ### Concrete fixtures shared by the claim theorems -/

def valTrue : List Char → Bool := fun _ => true
def oracleNone : List Char → Option (List Char) := fun _ => none
def goodRuleText : List Char := ("rule g \x7b \x7d").toList
def valIsGood : List Char → Bool := fun c => c == goodRuleText
def oracleGood : List Char → Option (List Char) := fun _ => some goodRuleText
def fsOneBad : FS := ⟨[(("a.yar").toList, some ("badrule").toList)], []⟩
def fsWeak : FS := ⟨[(("w.yar").toList, some ("pe.imphash").toList)], []⟩

/-- Claim C3, counterexample: with silent mode enabled but repair enabled and
an oracle whose acceptable fix validates, the routing pass overwrites the
rule file in place, so the filesystem is not left unchanged. -/
theorem c3_silent_counterexample :
    (⟨true, true, true⟩ : Config).silent_mode = true
    ∧ process_files valIsGood oracleGood ⟨true, true, true⟩ 100 fsOneBad =
        .ok ⟨⟨[(("a.yar").toList, some goodRuleText)], []⟩, [("a.yar").toList], []⟩
    ∧ (⟨[(("a.yar").toList, some goodRuleText)], []⟩ : FS) ≠ fsOneBad := by
  refine ⟨rfl, by decide, by decide⟩

/-- Claim C3 as amended: in silent mode move_or_copy_file itself is a
complete no-op on the filesystem, and a whole silent routing pass creates no
destination directory and copies or renames no file (buckets and the root
listing are untouched); but in-place repair overwrites are only absent when
repair is disabled, in which case the pass leaves the filesystem exactly
unchanged while still logging its reads. -/
theorem c3_silent_amended :
    (∀ (fs : FS) (n folder : List Char) (c : Option (List Char)) (cm : Bool),
       move_or_copy_file fs n folder c cm true = fs)
    ∧ (∀ (v : List Char → Bool) (o : List Char → Option (List Char)) (cfg : Config)
         (T : ℚ) (fs : FS) (r : PassResult), cfg.silent_mode = true →
         process_files v o cfg T fs = .ok r →
         r.fs.buckets = fs.buckets ∧ rootNames r.fs = rootNames fs)
    ∧ (∀ (v : List Char → Bool) (o : List Char → Option (List Char)) (cfg : Config)
         (T : ℚ) (fs : FS) (r : PassResult), cfg.silent_mode = true →
         cfg.fix_bad_rules = false →
         process_files v o cfg T fs = .ok r → r.fs = fs) := by
  refine ⟨move_or_copy_silent, ?_, ?_⟩
  · intro v o cfg T fs r hs h
    exact processList_silent_frame v o cfg T hs (rootNames fs)
      { fs := fs, reads := [], actions := [] } r h
  · intro v o cfg T fs r hs hf h
    exact processList_silent_nofix v o cfg T hs hf (rootNames fs)
      { fs := fs, reads := [], actions := [] } r h

/-- Witness for the amended claim C3: a concrete silent pass with repair
disabled returns the filesystem unchanged. -/
theorem c3_silent_amended_witness :
    (⟨true, true, false⟩ : Config).silent_mode = true
    ∧ (⟨true, true, false⟩ : Config).fix_bad_rules = false
    ∧ process_files valIsGood oracleGood ⟨true, true, false⟩ 100 fsOneBad =
        .ok ⟨fsOneBad, [("a.yar").toList], [(("a.yar").toList, brokenFolder)]⟩
    ∧ (⟨fsOneBad, [("a.yar").toList], [(("a.yar").toList, brokenFolder)]⟩ : PassResult).fs
        = fsOneBad :=
  ⟨rfl, rfl, by decide,
    c3_silent_amended.2.2 valIsGood oracleGood ⟨true, true, false⟩ 100 fsOneBad
      ⟨fsOneBad, [("a.yar").toList], [(("a.yar").toList, brokenFolder)]⟩ rfl rfl
      (by decide)⟩

/-- The similarity predicate, oracles and corpus used by the synthesis-pass
half of claim C5: every pair of strings counts as similar, the regex oracle
always answers with a 20-character pattern, and the master-rule improvement
oracle always answers with a fixed master rule text. -/
def simTrueC5 : List Char → List Char → Bool := fun _ _ => true
def genRegC5 : List (List Char) → Option (List Char) := fun _ => some (List.replicate 20 'a')
def improveMaster : List (List Char) → Option (List Char) :=
  fun _ => some (("rule master \x7b \x7d").toList)
def masterContent : List Char := ("rule master \x7b \x7d").toList
def synthFile1C5 : List Char := ("$s = aaaaa\n").toList
def files10 : List (List Char) := List.replicate 10 synthFile1C5

/-- Claim C5, counterexample, both halves of the claim.  Routing half: in
copy mode a rule already routed to the weak bucket is still listed in the
root, and a second routing pass reads it and performs the same
classification action on it again.  Synthesis half: a synthesis pass over a
ten-file corpus synthesizes its one cluster (one oracle call) and emits one
master rule file; the pass keeps no cross-run state, so re-running it on the
already-processed corpus — which now also holds the previously emitted,
uniquely named master rule file, itself contributing no string values —
re-calls the regex oracle for the very same cluster and emits another master
rule file: already-classified work is duplicated, not skipped. -/
theorem c5_copy_counterexample :
    (process_files valTrue oracleNone ⟨true, false, true⟩ 100 fsWeak =
      .ok ⟨⟨[(("w.yar").toList, some ("pe.imphash").toList)],
            [(weakRulesFolder, [(("w.yar").toList, some ("pe.imphash").toList)])]⟩,
           [("w.yar").toList], [(("w.yar").toList, weakRulesFolder)]⟩
    ∧ process_files valTrue oracleNone ⟨true, false, true⟩ 100
        (⟨[(("w.yar").toList, some ("pe.imphash").toList)],
          [(weakRulesFolder, [(("w.yar").toList, some ("pe.imphash").toList)])]⟩ : FS) =
      .ok ⟨⟨[(("w.yar").toList, some ("pe.imphash").toList)],
            [(weakRulesFolder, [(("w.yar").toList, some ("pe.imphash").toList)])]⟩,
           [("w.yar").toList], [(("w.yar").toList, weakRulesFolder)]⟩)
    ∧ ((process_yara_files simTrueC5 genRegC5 improveMaster defaultRegexBounds 10 1
          files10).batch.outputs = [(1, masterContent)]
       ∧ (process_yara_files simTrueC5 genRegC5 improveMaster defaultRegexBounds 10 1
            files10).batch.genCalls = 1
       ∧ findAssignments masterContent = []
       ∧ (process_yara_files simTrueC5 genRegC5 improveMaster defaultRegexBounds 10 1
            (files10 ++ [masterContent])).batch.outputs = [(1, masterContent)]
       ∧ (process_yara_files simTrueC5 genRegC5 improveMaster defaultRegexBounds 10 1
            (files10 ++ [masterContent])).batch.genCalls = 1) := by
  refine ⟨⟨by decide, by decide⟩, by decide, by decide, by decide, by decide, by decide⟩

/-- Claim C5 as amended: in non-silent move (rename) mode the routing pass is
idempotent over routed output — after a pass, every rule it routed is no
longer listed in the root, and a re-run of the routing pass neither reads it
nor performs any classification action on it (in copy mode the original
stays in the active set and is re-classified, as the counterexample shows).
The synthesis pass, however, is not idempotent over already-classified work:
it keeps no cross-run state, so re-running it on the already-processed
corpus, extended with the previously emitted master rule file, re-calls the
regex oracle for the same cluster and emits another master rule file (second
and third conjuncts, concretely). -/
theorem c5_move_idempotent :
    (∀ (v : List Char → Bool) (o : List Char → Option (List Char)) (cfg : Config)
       (T : ℚ) (fs : FS) (r : PassResult),
       cfg.copy_mode = false → cfg.silent_mode = false →
       process_files v o cfg T fs = .ok r →
       ∀ a ∈ r.actions, ¬ a.1 ∈ rootNames r.fs ∧
         (∀ (v2 : List Char → Bool) (o2 : List Char → Option (List Char)) (cfg2 : Config)
            (T2 : ℚ) (r2 : PassResult), process_files v2 o2 cfg2 T2 r.fs = .ok r2 →
            ¬ a.1 ∈ r2.reads ∧ ∀ f, ¬ (a.1, f) ∈ r2.actions))
    ∧ (process_yara_files simTrueC5 genRegC5 improveMaster defaultRegexBounds 10 1
        (files10 ++ [masterContent])).batch.genCalls = 1
    ∧ (process_yara_files simTrueC5 genRegC5 improveMaster defaultRegexBounds 10 1
        (files10 ++ [masterContent])).batch.outputs = [(1, masterContent)] := by
  refine ⟨?_, by decide, by decide⟩
  intro v o cfg T fs r hcm hsm h a ha
  have hnot : ¬ a.1 ∈ rootNames r.fs :=
    processList_move_invariant v o cfg T hcm hsm (rootNames fs)
      { fs := fs, reads := [], actions := [] } r h (by intro x hx; cases hx) a ha
  refine ⟨hnot, ?_⟩
  intro v2 o2 cfg2 T2 r2 h2
  constructor
  · intro hread
    rw [processList_reads v2 o2 cfg2 T2 (rootNames r.fs)
      { fs := r.fs, reads := [], actions := [] } r2 h2] at hread
    simp only [List.nil_append, List.mem_filter] at hread
    exact hnot hread.1
  · intro f hact
    rcases processList_actions_sub v2 o2 cfg2 T2 (rootNames r.fs)
        { fs := r.fs, reads := [], actions := [] } r2 (a.1, f) h2 hact with hin | ⟨hmem, _⟩
    · cases hin
    · exact hnot hmem

/-- Witness for the amended claim C5: a concrete move-mode pass routes the
weak rule out of the root, and a re-run neither reads it nor acts on it. -/
theorem c5_move_idempotent_witness :
    process_files valTrue oracleNone ⟨false, false, true⟩ 100 fsWeak =
      .ok ⟨⟨[], [(weakRulesFolder, [(("w.yar").toList, some ("pe.imphash").toList)])]⟩,
           [("w.yar").toList], [(("w.yar").toList, weakRulesFolder)]⟩
    ∧ (¬ ("w.yar").toList ∈ rootNames
        (⟨⟨[], [(weakRulesFolder, [(("w.yar").toList, some ("pe.imphash").toList)])]⟩,
          [("w.yar").toList], [(("w.yar").toList, weakRulesFolder)]⟩ : PassResult).fs) := by
  have h1 : process_files valTrue oracleNone ⟨false, false, true⟩ 100 fsWeak =
      .ok ⟨⟨[], [(weakRulesFolder, [(("w.yar").toList, some ("pe.imphash").toList)])]⟩,
           [("w.yar").toList], [(("w.yar").toList, weakRulesFolder)]⟩ := by decide
  refine ⟨h1, ?_⟩
  exact (c5_move_idempotent.1 valTrue oracleNone ⟨false, false, true⟩ 100 fsWeak
    _ rfl rfl h1 (("w.yar").toList, weakRulesFolder) (by decide)).1

/-- Claim C6, counterexample: an unreadable file aborts the whole routing
pass (the read error propagates; the remaining corpus, here a weak rule that
would have been routed, is never processed). -/
theorem c6_unreadable_aborts :
    process_files valTrue oracleNone ⟨true, false, true⟩ 100
      (⟨[(("a.yar").toList, none), (("b.yar").toList, some ("pe.imphash").toList)], []⟩ : FS)
    = .error (("a.yar").toList) := by
  decide

/-- Claim C6 as amended: oracle failures never abort the routing pass — for
every oracle, including one that fails on every call, a pass over a corpus
whose listed yar files are all readable (and whose listing holds no duplicate
names) completes normally; only a file read error aborts it. -/
theorem c6_oracle_isolated :
    ∀ (v : List Char → Bool) (o : List Char → Option (List Char)) (cfg : Config)
      (T : ℚ) (fs : FS),
      (rootNames fs).Nodup →
      (∀ n ∈ rootNames fs, trailsWith yarSuffix n = true →
        ((lookupRoot fs n).getD none).isSome = true) →
      ∃ r, process_files v o cfg T fs = .ok r := by
  intro v o cfg T fs hnd hread
  apply processList_isOk v o cfg T (rootNames fs)
    { fs := fs, reads := [], actions := [] } hnd
  intro n hn hy
  have := hread n hn hy
  cases hl : lookupRoot fs n with
  | none => rw [hl] at this; cases this
  | some oc =>
    cases oc with
    | none => rw [hl] at this; cases this
    | some c => exact ⟨c, rfl⟩

/-- Witness for the amended claim C6: with an always-failing oracle and a
corpus holding one readable yar rule and one unreadable non-yar file, the
pass completes. -/
theorem c6_oracle_isolated_witness :
    ∃ r, process_files valTrue oracleNone ⟨true, false, true⟩ 100
      (⟨[(("a.yar").toList, some ("x").toList), (("b.txt").toList, none)], []⟩ : FS)
      = .ok r :=
  c6_oracle_isolated valTrue oracleNone ⟨true, false, true⟩ 100
    (⟨[(("a.yar").toList, some ("x").toList), (("b.txt").toList, none)], []⟩ : FS)
    (by decide) (by decide)

/-- Claim C10, counterexample: routing writes into bucket subdirectories, and
a pre-existing bucket file whose basename collides with a routed root rule is
overwritten — it is not left untouched. -/
theorem c10_bucket_overwrite :
    lookupBucket
      (⟨[(("foo.yar").toList, some ("pe.imphash").toList)],
        [(weakRulesFolder, [(("foo.yar").toList, some ("old").toList)])]⟩ : FS)
      weakRulesFolder (("foo.yar").toList) = some (some ("old").toList)
    ∧ process_files valTrue oracleNone ⟨true, false, true⟩ 100
        (⟨[(("foo.yar").toList, some ("pe.imphash").toList)],
          [(weakRulesFolder, [(("foo.yar").toList, some ("old").toList)])]⟩ : FS)
      = .ok ⟨⟨[(("foo.yar").toList, some ("pe.imphash").toList)],
              [(weakRulesFolder, [(("foo.yar").toList, some ("pe.imphash").toList)])]⟩,
             [("foo.yar").toList], [(("foo.yar").toList, weakRulesFolder)]⟩
    ∧ ¬ (some (some ("pe.imphash").toList) : Option (Option (List Char)))
        = some (some ("old").toList) := by
  refine ⟨by decide, by decide, by decide⟩

/-- Claim C10 as amended: the routing pass reads exactly the names ending in
".yar" listed directly in the corpus root, in listing order; every root file
with another extension keeps its content and is never read; and a bucket
entry changes only when its name is that of a listed yar-suffixed root file
being placed there as a routing destination. -/
theorem c10_frame :
    ∀ (v : List Char → Bool) (o : List Char → Option (List Char)) (cfg : Config)
      (T : ℚ) (fs : FS) (r : PassResult),
      process_files v o cfg T fs = .ok r →
      r.reads = (rootNames fs).filter (fun n => trailsWith yarSuffix n)
      ∧ (∀ m, ¬ trailsWith yarSuffix m = true → lookupRoot r.fs m = lookupRoot fs m)
      ∧ (∀ b m, ¬ lookupBucket r.fs b m = lookupBucket fs b m →
          m ∈ rootNames fs ∧ trailsWith yarSuffix m = true) := by
  intro v o cfg T fs r h
  refine ⟨?_, ?_, ?_⟩
  · have := processList_reads v o cfg T (rootNames fs)
      { fs := fs, reads := [], actions := [] } r h
    simpa using this
  · intro m hm
    exact processList_lookupRoot_nonyar v o cfg T (rootNames fs)
      { fs := fs, reads := [], actions := [] } r m h hm
  · intro b m hch
    exact processList_lookupBucket_changed v o cfg T (rootNames fs)
      { fs := fs, reads := [], actions := [] } r b m h hch

/-- Witness for the amended claim C10: on a corpus with one yar rule and one
text file, the pass reads only the yar rule and the text file keeps its
content. -/
theorem c10_frame_witness :
    process_files valTrue oracleNone ⟨true, true, false⟩ 100
      (⟨[(("a.yar").toList, some ("x").toList), (("b.txt").toList, some ("y").toList)], []⟩ : FS)
      = .ok ⟨⟨[(("a.yar").toList, some ("x").toList), (("b.txt").toList, some ("y").toList)], []⟩,
             [("a.yar").toList], []⟩
    ∧ (⟨⟨[(("a.yar").toList, some ("x").toList), (("b.txt").toList, some ("y").toList)], []⟩,
         [("a.yar").toList], []⟩ : PassResult).reads =
        (rootNames (⟨[(("a.yar").toList, some ("x").toList),
          (("b.txt").toList, some ("y").toList)], []⟩ : FS)).filter
          (fun n => trailsWith yarSuffix n) := by
  have h1 : process_files valTrue oracleNone ⟨true, true, false⟩ 100
      (⟨[(("a.yar").toList, some ("x").toList), (("b.txt").toList, some ("y").toList)], []⟩ : FS)
      = .ok ⟨⟨[(("a.yar").toList, some ("x").toList), (("b.txt").toList, some ("y").toList)], []⟩,
             [("a.yar").toList], []⟩ := by decide
  refine ⟨h1, ?_⟩
  exact (c10_frame valTrue oracleNone ⟨true, true, false⟩ 100 _ _ h1).1

/-! ### Synthesis pass lemmas -/

/-- Every cluster of the state holds fewer than `minSize` members. -/
def ClustersSmall (minSize : Nat) (st : SynthState) : Prop :=
  (∀ cl ∈ st.short, cl.2.length < minSize)
  ∧ (∀ cl ∈ st.medium, cl.2.length < minSize)
  ∧ (∀ cl ∈ st.long, cl.2.length < minSize)

/-- When the regex oracle always returns a usable (nonempty) pattern, a
cluster leaves its inspection step below the minimum size: a cluster at the
minimum was reset, a smaller one was untouched. -/
theorem inspectCluster_small (gen improve : List (List Char) → Option (List Char))
    (bounds : RegexBounds) (minSize maxPerRule : Nat)
    (cl : List Char × List (List Char)) (b : BatchState) (hmin : 1 ≤ minSize)
    (hgen : ∀ ms, ∃ rx, gen ms = some rx ∧ rx.isEmpty = false) :
    (inspectCluster gen improve bounds minSize maxPerRule cl b).1.2.length < minSize := by
  unfold inspectCluster
  by_cases hc : cl.2.length ≥ minSize
  · rw [if_pos hc]
    obtain ⟨rx, hrx, hne⟩ := hgen cl.2
    rw [hrx]
    simp only [hne, Bool.false_eq_true, if_false]
    simpa using hmin
  · rw [if_neg hc]
    simpa using Nat.lt_of_not_le hc

theorem inspectCategory_small (gen improve : List (List Char) → Option (List Char))
    (bounds : RegexBounds) (minSize maxPerRule : Nat) (hmin : 1 ≤ minSize)
    (hgen : ∀ ms, ∃ rx, gen ms = some rx ∧ rx.isEmpty = false) :
    ∀ (cls : List (List Char × List (List Char))) (b : BatchState),
      ∀ cl ∈ (inspectCategory gen improve bounds minSize maxPerRule cls b).1,
        cl.2.length < minSize := by
  intro cls
  induction cls with
  | nil =>
    intro b cl h
    cases h
  | cons c rest ih =>
    intro b cl h
    unfold inspectCategory at h
    rcases List.mem_cons.mp h with he | ht
    · rw [he]
      exact inspectCluster_small gen improve bounds minSize maxPerRule c b hmin hgen
    · exact ih _ cl ht

theorem processSynthFile_small (similar : List Char → List Char → Bool)
    (gen improve : List (List Char) → Option (List Char)) (bounds : RegexBounds)
    (minSize maxPerRule : Nat) (st : SynthState) (content : List Char)
    (hmin : 1 ≤ minSize)
    (hgen : ∀ ms, ∃ rx, gen ms = some rx ∧ rx.isEmpty = false) :
    ClustersSmall minSize
      (processSynthFile similar gen improve bounds minSize maxPerRule st content) := by
  unfold processSynthFile
  refine ⟨?_, ?_, ?_⟩ <;>
    exact fun cl h => inspectCategory_small gen improve bounds minSize maxPerRule
      hmin hgen _ _ cl h

/-- The sequence-number discipline of the batch accumulator: persisted files
carry pairwise distinct sequence numbers, all below the counter. -/
def SeqOk (b : BatchState) : Prop :=
  b.outputs.Pairwise (fun x y => ¬ x.1 = y.1)
  ∧ ∀ x ∈ b.outputs, x.1 < b.master_rule_seq

theorem flushCheck_seqOk (improve : List (List Char) → Option (List Char))
    (maxPerRule : Nat) (b : BatchState) (h : SeqOk b) :
    SeqOk (flushCheck improve maxPerRule b) := by
  unfold flushCheck
  split_ifs with hc
  · cases him : improve b.regex_patterns with
    | none =>
      refine ⟨h.1, ?_⟩
      intro x hx
      exact Nat.lt_succ_of_lt (h.2 x hx)
    | some resp =>
      constructor
      · rw [List.pairwise_append]
        refine ⟨h.1, List.pairwise_singleton _ _, ?_⟩
        intro x hx y hy
        have hyb : y = (b.master_rule_seq, resp) := by simpa using hy
        rw [hyb]
        exact Nat.ne_of_lt (h.2 x hx)
      · intro x hx
        rcases List.mem_append.mp hx with hx | hx
        · exact Nat.lt_succ_of_lt (h.2 x hx)
        · have : x = (b.master_rule_seq, resp) := by simpa using hx
          rw [this]
          exact Nat.lt_succ_self _
  · exact h

theorem inspectCluster_seqOk (gen improve : List (List Char) → Option (List Char))
    (bounds : RegexBounds) (minSize maxPerRule : Nat)
    (cl : List Char × List (List Char)) (b : BatchState) (h : SeqOk b) :
    SeqOk (inspectCluster gen improve bounds minSize maxPerRule cl b).2 := by
  unfold inspectCluster
  split_ifs with hc
  · cases hg : gen cl.2 with
    | none => exact flushCheck_seqOk improve maxPerRule _ ⟨h.1, h.2⟩
    | some rx =>
      by_cases he : rx.isEmpty = true
      · simp only [he, if_true]
        exact flushCheck_seqOk improve maxPerRule _ ⟨h.1, h.2⟩
      · simp only [he, if_false]
        split_ifs <;> exact flushCheck_seqOk improve maxPerRule _ h
  · exact flushCheck_seqOk improve maxPerRule _ h

theorem inspectCategory_seqOk (gen improve : List (List Char) → Option (List Char))
    (bounds : RegexBounds) (minSize maxPerRule : Nat) :
    ∀ (cls : List (List Char × List (List Char))) (b : BatchState), SeqOk b →
      SeqOk (inspectCategory gen improve bounds minSize maxPerRule cls b).2 := by
  intro cls
  induction cls with
  | nil =>
    intro b h
    exact h
  | cons c rest ih =>
    intro b h
    unfold inspectCategory
    exact ih _ (inspectCluster_seqOk gen improve bounds minSize maxPerRule c b h)

theorem processSynthFile_seqOk (similar : List Char → List Char → Bool)
    (gen improve : List (List Char) → Option (List Char)) (bounds : RegexBounds)
    (minSize maxPerRule : Nat) (st : SynthState) (content : List Char)
    (h : SeqOk st.batch) :
    SeqOk (processSynthFile similar gen improve bounds minSize maxPerRule st content).batch := by
  unfold processSynthFile
  have h1 : SeqOk ((findAssignments content).foldl
      (fun acc s =>
        if is_unacceptable_string s then acc
        else
          match categorize_string_length s with
          | .short => { acc with short := insertString similar s acc.short }
          | .medium => { acc with medium := insertString similar s acc.medium }
          | .long => { acc with long := insertString similar s acc.long })
      st).batch := by
    generalize findAssignments content = strs
    induction strs generalizing st with
    | nil => exact h
    | cons a rest ih =>
      simp only [List.foldl_cons]
      apply ih
      by_cases hu : is_unacceptable_string a = true
      · simpa [hu] using h
      · simp only [hu, Bool.false_eq_true, if_false]
        cases categorize_string_length a <;> simpa using h
  exact inspectCategory_seqOk gen improve bounds minSize maxPerRule _ _
    (inspectCategory_seqOk gen improve bounds minSize maxPerRule _ _
      (inspectCategory_seqOk gen improve bounds minSize maxPerRule _ _ h1))

theorem process_yara_files_seqOk (similar : List Char → List Char → Bool)
    (gen improve : List (List Char) → Option (List Char)) (bounds : RegexBounds)
    (minSize maxPerRule : Nat) (files : List (List Char)) :
    SeqOk (process_yara_files similar gen improve bounds minSize maxPerRule files).batch := by
  unfold process_yara_files
  have : ∀ (fl : List (List Char)) (st : SynthState), SeqOk st.batch →
      SeqOk (fl.foldl (processSynthFile similar gen improve bounds minSize maxPerRule) st).batch := by
    intro fl
    induction fl with
    | nil => intro st h; exact h
    | cons f rest ih =>
      intro st h
      simp only [List.foldl_cons]
      exact ih _ (processSynthFile_seqOk similar gen improve bounds minSize maxPerRule st f h)
  exact this files initSynthState ⟨List.Pairwise.nil, by intro x hx; cases hx⟩

/-- After a flush check the batch is always strictly below capacity. -/
theorem flushCheck_small (improve : List (List Char) → Option (List Char))
    (maxPerRule : Nat) (b : BatchState) (hmax : 1 ≤ maxPerRule)
    (_hb : b.regex_patterns.length ≤ maxPerRule) :
    (flushCheck improve maxPerRule b).regex_patterns.length < maxPerRule := by
  unfold flushCheck
  split_ifs with hc
  · cases improve b.regex_patterns <;> simpa using hmax
  · exact Nat.lt_of_not_le (fun hle => hc (by omega))

theorem inspectCluster_small_batch (gen improve : List (List Char) → Option (List Char))
    (bounds : RegexBounds) (minSize maxPerRule : Nat)
    (cl : List Char × List (List Char)) (b : BatchState) (hmax : 1 ≤ maxPerRule)
    (hb : b.regex_patterns.length < maxPerRule) :
    (inspectCluster gen improve bounds minSize maxPerRule cl b).2.regex_patterns.length
      < maxPerRule := by
  unfold inspectCluster
  split_ifs with hc
  · cases hg : gen cl.2 with
    | none => exact flushCheck_small improve maxPerRule _ hmax (Nat.le_of_lt hb)
    | some rx =>
      by_cases he : rx.isEmpty = true
      · simp only [he, if_true]
        exact flushCheck_small improve maxPerRule _ hmax (Nat.le_of_lt hb)
      · simp only [he, if_false]
        split_ifs
        all_goals
          first
            | exact flushCheck_small improve maxPerRule _ hmax (Nat.le_of_lt hb)
            | · apply flushCheck_small improve maxPerRule _ hmax
                simp only [List.length_append, List.length_cons, List.length_nil]
                omega
  · exact flushCheck_small improve maxPerRule _ hmax (Nat.le_of_lt hb)

theorem inspectCategory_small_batch (gen improve : List (List Char) → Option (List Char))
    (bounds : RegexBounds) (minSize maxPerRule : Nat) (hmax : 1 ≤ maxPerRule) :
    ∀ (cls : List (List Char × List (List Char))) (b : BatchState),
      b.regex_patterns.length < maxPerRule →
      (inspectCategory gen improve bounds minSize maxPerRule cls b).2.regex_patterns.length
        < maxPerRule := by
  intro cls
  induction cls with
  | nil => intro b h; exact h
  | cons c rest ih =>
    intro b h
    unfold inspectCategory
    exact ih _ (inspectCluster_small_batch gen improve bounds minSize maxPerRule c b hmax h)

theorem processSynthFile_small_batch (similar : List Char → List Char → Bool)
    (gen improve : List (List Char) → Option (List Char)) (bounds : RegexBounds)
    (minSize maxPerRule : Nat) (st : SynthState) (content : List Char)
    (hmax : 1 ≤ maxPerRule) (h : st.batch.regex_patterns.length < maxPerRule) :
    (processSynthFile similar gen improve bounds minSize maxPerRule st content).batch.regex_patterns.length
      < maxPerRule := by
  unfold processSynthFile
  have h1 : ((findAssignments content).foldl
      (fun acc s =>
        if is_unacceptable_string s then acc
        else
          match categorize_string_length s with
          | .short => { acc with short := insertString similar s acc.short }
          | .medium => { acc with medium := insertString similar s acc.medium }
          | .long => { acc with long := insertString similar s acc.long })
      st).batch.regex_patterns.length < maxPerRule := by
    generalize findAssignments content = strs
    induction strs generalizing st with
    | nil => exact h
    | cons a rest ih =>
      simp only [List.foldl_cons]
      apply ih
      by_cases hu : is_unacceptable_string a = true
      · simpa [hu] using h
      · simp only [hu, Bool.false_eq_true, if_false]
        cases categorize_string_length a <;> simpa using h
  exact inspectCategory_small_batch gen improve bounds minSize maxPerRule hmax _ _
    (inspectCategory_small_batch gen improve bounds minSize maxPerRule hmax _ _
      (inspectCategory_small_batch gen improve bounds minSize maxPerRule hmax _ _ h1))

/-! ### Concrete fixtures for the synthesis pass claims -/

def simTrue : List Char → List Char → Bool := fun _ _ => true
def genNone : List (List Char) → Option (List Char) := fun _ => none
def genReg : List (List Char) → Option (List Char) := fun _ => some (List.replicate 20 'a')
def improveNone : List (List Char) → Option (List Char) := fun _ => none
def synthFile1 : List Char := ("$s = aaaaa\n").toList
def synthFile10 : List Char := (List.replicate 10 (("$s = aaaaa\n").toList)).flatten

/-- Claim C7, counterexample: when the regex oracle fails (returns no usable
pattern), a cluster that reached the minimum size is NOT reset — after the
per-file step it still holds MIN_CLUSTER_SIZE members, and on the next file
it triggers synthesis a second time, contradicting both "reset to an empty
member list" and "triggered regex synthesis exactly once". -/
theorem c7_cluster_reset_counterexample :
    (process_yara_files simTrue genNone improveNone defaultRegexBounds 10 10
        [synthFile10]).batch.genCalls = 1
    ∧ (process_yara_files simTrue genNone improveNone defaultRegexBounds 10 10
        [synthFile10]).short
      = [(("aaaaa").toList, List.replicate 10 (("aaaaa").toList))]
    ∧ (10 ≤ (List.replicate 10 (("aaaaa").toList)).length)
    ∧ (process_yara_files simTrue genNone improveNone defaultRegexBounds 10 10
        [synthFile10, synthFile1]).batch.genCalls = 2 := by
  refine ⟨by decide, by decide, by decide, by decide⟩

/-- Claim C7 as amended: provided every synthesis request returns a usable
(nonempty) pattern, after every per-file step each cluster holds fewer than
the minimum member count — a cluster reaching the minimum triggered synthesis
and was reset to empty with its key preserved; and concretely, with 12
qualifying near-identical strings arriving one per file, synthesis triggers
exactly at the 10th observed member (no oracle call through file 9, exactly
one call at file 10, and none later), leaving the cluster empty with its key
kept.  When the oracle returns no usable pattern the cluster is left intact,
as the counterexample shows. -/
theorem c7_cluster_reset_amended :
    (∀ (similar : List Char → List Char → Bool)
       (gen improve : List (List Char) → Option (List Char)) (bounds : RegexBounds)
       (minSize maxPerRule : Nat) (st : SynthState) (content : List Char),
       1 ≤ minSize →
       (∀ ms, ∃ rx, gen ms = some rx ∧ rx.isEmpty = false) →
       ClustersSmall minSize
         (processSynthFile similar gen improve bounds minSize maxPerRule st content))
    ∧ (process_yara_files simTrue genReg improveNone defaultRegexBounds 10 10
        (List.replicate 9 synthFile1)).batch.genCalls = 0
    ∧ (process_yara_files simTrue genReg improveNone defaultRegexBounds 10 10
        (List.replicate 10 synthFile1)).batch.genCalls = 1
    ∧ (process_yara_files simTrue genReg improveNone defaultRegexBounds 10 10
        (List.replicate 10 synthFile1)).short = [(("aaaaa").toList, [])]
    ∧ (process_yara_files simTrue genReg improveNone defaultRegexBounds 10 10
        (List.replicate 12 synthFile1)).batch.genCalls = 1 := by
  refine ⟨?_, by decide, by decide, by decide, by decide⟩
  intro similar gen improve bounds minSize maxPerRule st content hmin hgen
  exact processSynthFile_small similar gen improve bounds minSize maxPerRule st content
    hmin hgen

/-- Witness for the amended claim C7: one file contributing ten similar
strings with an always-successful oracle leaves every cluster below the
minimum size. -/
theorem c7_cluster_reset_amended_witness :
    ClustersSmall 10
      (processSynthFile simTrue genReg improveNone defaultRegexBounds 10 10
        initSynthState synthFile10) :=
  c7_cluster_reset_amended.1 simTrue genReg improveNone defaultRegexBounds 10 10
    initSynthState synthFile10 (by decide)
    (fun ms => ⟨List.replicate 20 'a', rfl, by decide⟩)

/-- Claim C8: when the accepted-pattern batch reaches its capacity and the
improvement oracle responds, the flush persists the response verbatim under
the current sequence number, clears the batch, and increments the counter by
exactly one; the batch never exceeds capacity at any observation point, so
the flush fires exactly when the capacity is reached; persisted files carry
pairwise distinct sequence numbers (uniquely named); and a batch that never
reaches capacity by the end of the pass is not flushed (concretely, a pass
accepting a single pattern ends with it still in the batch and no output
file). -/
theorem c8_batch_flush :
    (∀ (improve : List (List Char) → Option (List Char)) (maxPerRule : Nat)
       (b : BatchState) (resp : List Char),
       b.regex_patterns.length = maxPerRule →
       improve b.regex_patterns = some resp →
       flushCheck improve maxPerRule b =
         { regex_patterns := [], master_rule_seq := b.master_rule_seq + 1,
           outputs := b.outputs ++ [(b.master_rule_seq, resp)],
           genCalls := b.genCalls })
    ∧ (∀ (improve : List (List Char) → Option (List Char)) (maxPerRule : Nat)
         (b : BatchState), b.regex_patterns.length < maxPerRule →
         flushCheck improve maxPerRule b = b)
    ∧ (∀ (similar : List Char → List Char → Bool)
         (gen improve : List (List Char) → Option (List Char)) (bounds : RegexBounds)
         (minSize maxPerRule : Nat) (files : List (List Char)), 1 ≤ maxPerRule →
         (process_yara_files similar gen improve bounds minSize maxPerRule
             files).batch.regex_patterns.length < maxPerRule)
    ∧ (∀ (similar : List Char → List Char → Bool)
         (gen improve : List (List Char) → Option (List Char)) (bounds : RegexBounds)
         (minSize maxPerRule : Nat) (files : List (List Char)),
         ((process_yara_files similar gen improve bounds minSize maxPerRule
             files).batch.outputs).Pairwise (fun x y => ¬ x.1 = y.1))
    ∧ ((process_yara_files simTrue genReg improveNone defaultRegexBounds 10 10
          (List.replicate 12 synthFile1)).batch.outputs = []
       ∧ (process_yara_files simTrue genReg improveNone defaultRegexBounds 10 10
            (List.replicate 12 synthFile1)).batch.regex_patterns
           = [List.replicate 20 'a']) := by
  refine ⟨?_, ?_, ?_, ?_, by decide, by decide⟩
  · intro improve maxPerRule b resp hlen him
    unfold flushCheck
    rw [if_pos (by omega), him]
  · intro improve maxPerRule b hlt
    unfold flushCheck
    rw [if_neg (by omega)]
  · intro similar gen improve bounds minSize maxPerRule files hmax
    unfold process_yara_files
    have : ∀ (fl : List (List Char)) (st : SynthState),
        st.batch.regex_patterns.length < maxPerRule →
        (fl.foldl (processSynthFile similar gen improve bounds minSize maxPerRule)
            st).batch.regex_patterns.length < maxPerRule := by
      intro fl
      induction fl with
      | nil => intro st h; exact h
      | cons f rest ih =>
        intro st h
        simp only [List.foldl_cons]
        exact ih _ (processSynthFile_small_batch similar gen improve bounds minSize
          maxPerRule st f hmax h)
    exact this files initSynthState (by simpa using hmax)
  · intro similar gen improve bounds minSize maxPerRule files
    exact (process_yara_files_seqOk similar gen improve bounds minSize maxPerRule files).1

/-- Witness for claim C8: a concrete batch at capacity with a responding
improvement oracle flushes to exactly one new output, clears the batch and
increments the counter. -/
theorem c8_batch_flush_witness :
    (⟨[("r1").toList], 4, [(3, ("m3").toList)], 7⟩ : BatchState).regex_patterns.length = 1
    ∧ (fun _ => some (("master").toList) : List (List Char) → Option (List Char))
        (⟨[("r1").toList], 4, [(3, ("m3").toList)], 7⟩ : BatchState).regex_patterns
        = some (("master").toList)
    ∧ flushCheck (fun _ => some (("master").toList)) 1
        (⟨[("r1").toList], 4, [(3, ("m3").toList)], 7⟩ : BatchState)
      = { regex_patterns := [], master_rule_seq := 5,
          outputs := [(3, ("m3").toList), (4, ("master").toList)], genCalls := 7 } :=
  ⟨rfl, rfl,
    c8_batch_flush.1 (fun _ => some (("master").toList)) 1
      (⟨[("r1").toList], 4, [(3, ("m3").toList)], 7⟩ : BatchState) (("master").toList)
      (by decide) rfl⟩

end Threat2Yar












